import Mathlib

/-!
Verification development for the healthApi server (Express/Mongoose health
data ingestion service).  The JavaScript core is shallowly embedded below:
JSON-ish raw samples become inductive types, JS truthiness (`||` chains,
`if (x)` guards) is modelled explicitly on `Option` values, `Math.round`
becomes floor of `x + 1/2` on `ℚ`, epoch timestamps are `ℤ` milliseconds,
and the `Array.prototype.sort` call (stable in modern engines) is modelled
by Mathlib's stable `List.insertionSort`.
-/

namespace HealthApi

/-! ## JS truthiness helpers -/

/-- JS `a || b` on numeric values: `none` models absent/undefined/NaN-free
falsy fields; a present `0` is falsy and falls through to `b`. -/
def jsOrNum : Option ℚ → Option ℚ → Option ℚ
  | some x, b => if x = 0 then b else some x
  | none, b => b

/-- JS `if (x)` on a numeric value: keep only present non-zero values. -/
def truthyNum : Option ℚ → Option ℚ
  | some x => if x = 0 then none else some x
  | none => none

/-- JS `Math.round` on an exact rational: round half toward positive infinity. -/
def jsRound (q : ℚ) : ℤ := ⌊q + 1/2⌋

/-! ## C1 — heart-rate pooling in `processRawHealthData` (src/unnamed/part_002:147-165) -/

/-- One nested beat sample inside a raw heart-rate record (`r.samples[i]`).
Each candidate field is `none` when absent. -/
structure HRSub where
  beatsPerMinute : Option ℚ
  bpm : Option ℚ
  value : Option ℚ
deriving DecidableEq

/-- One raw heart-rate record. `samples = some l` models `Array.isArray(r.samples)`
being true (the array may be empty); `none` models a missing/non-array field. -/
structure HRSample where
  beatsPerMinute : Option ℚ
  bpm : Option ℚ
  value : Option ℚ
  samples : Option (List HRSub)
deriving DecidableEq

/-- `const bpm = s.beatsPerMinute || s.bpm || s.value; if (bpm) push(bpm)`
for a nested sub-sample: the pushed value, if any. -/
def subBPM (s : HRSub) : Option ℚ :=
  truthyNum (jsOrNum s.beatsPerMinute (jsOrNum s.bpm s.value))

/-- Same extraction applied to a top-level record in the non-array branch. -/
def recBPM (r : HRSample) : Option ℚ :=
  truthyNum (jsOrNum r.beatsPerMinute (jsOrNum r.bpm r.value))

/-- The `allBPMs` accumulator of `processRawHealthData`: a `forEach` that pushes
either every nested sub-sample's bpm or the record's own bpm. -/
def allBPMs (heartRate : List HRSample) : List ℚ :=
  heartRate.foldl
    (fun acc r =>
      match r.samples with
      | some subs => acc ++ subs.filterMap subBPM
      | none => acc ++ (recBPM r).toList)
    []

/-- The heart-rate fields of the combined summary. -/
structure HeartStats where
  avg : Option ℤ
  min : Option ℚ
  max : Option ℚ
deriving DecidableEq

/-- Heart-rate block of `processRawHealthData`: average via
`Math.round(allBPMs.reduce((a,b) => a+b, 0) / allBPMs.length)`, extrema via
`Math.min(...)` / `Math.max(...)`, and `null`s on an empty pool. -/
def heartRateStats (heartRate : List HRSample) : HeartStats :=
  match allBPMs heartRate with
  | [] => ⟨none, none, none⟩
  | x :: xs =>
      ⟨some (jsRound (((x :: xs).foldl (· + ·) 0) / ((x :: xs).length : ℚ))),
       some (xs.foldl min x), some (xs.foldl max x)⟩

/-- The bpm values one raw record contributes to the pool, as the spec
describes it: all sub-sample bpms when a nested array is present, else the
record's own bpm. -/
def contributedBPMs (r : HRSample) : List ℚ :=
  match r.samples with
  | some subs => subs.filterMap subBPM
  | none => (recBPM r).toList

theorem allBPMs_append_fold (heartRate : List HRSample) (acc : List ℚ) :
    heartRate.foldl
      (fun acc r =>
        match r.samples with
        | some subs => acc ++ subs.filterMap subBPM
        | none => acc ++ (recBPM r).toList)
      acc = acc ++ (heartRate.map contributedBPMs).flatten := by
  induction heartRate generalizing acc with
  | nil => simp
  | cons r rest ih =>
      simp only [List.foldl_cons, List.map_cons, List.flatten_cons]
      rw [ih]
      cases h : r.samples <;> simp [contributedBPMs, h, List.append_assoc]

theorem allBPMs_eq_flatten (heartRate : List HRSample) :
    allBPMs heartRate = (heartRate.map contributedBPMs).flatten := by
  simpa using allBPMs_append_fold heartRate []

theorem foldl_add_eq_sum (xs : List ℚ) (x : ℚ) :
    xs.foldl (· + ·) x = x + xs.sum := by
  induction xs generalizing x with
  | nil => simp
  | cons y ys ih => simp [ih, add_assoc]

theorem foldl_min_mem (xs : List ℚ) (x : ℚ) :
    xs.foldl min x ∈ x :: xs := by
  induction xs generalizing x with
  | nil => simp
  | cons y ys ih =>
      simp only [List.foldl_cons]
      rcases List.mem_cons.mp (ih (min x y)) with h | h
      · rw [h]
        rcases min_choice x y with hxy | hxy <;> simp [hxy]
      · simp [h]

theorem foldl_min_le (xs : List ℚ) (x : ℚ) :
    xs.foldl min x ≤ x ∧ ∀ y ∈ xs, xs.foldl min x ≤ y := by
  induction xs generalizing x with
  | nil => simp
  | cons y ys ih =>
      simp only [List.foldl_cons]
      obtain ⟨h1, h2⟩ := ih (min x y)
      refine ⟨le_trans h1 (min_le_left x y), ?_⟩
      intro z hz
      rcases List.mem_cons.mp hz with rfl | hz
      · exact le_trans h1 (min_le_right x z)
      · exact h2 z hz

theorem foldl_max_mem (xs : List ℚ) (x : ℚ) :
    xs.foldl max x ∈ x :: xs := by
  induction xs generalizing x with
  | nil => simp
  | cons y ys ih =>
      simp only [List.foldl_cons]
      rcases List.mem_cons.mp (ih (max x y)) with h | h
      · rw [h]
        rcases max_choice x y with hxy | hxy <;> simp [hxy]
      · simp [h]

theorem foldl_max_ge (xs : List ℚ) (x : ℚ) :
    x ≤ xs.foldl max x ∧ ∀ y ∈ xs, y ≤ xs.foldl max x := by
  induction xs generalizing x with
  | nil => simp
  | cons y ys ih =>
      simp only [List.foldl_cons]
      obtain ⟨h1, h2⟩ := ih (max x y)
      refine ⟨le_trans (le_max_left x y) h1, ?_⟩
      intro z hz
      rcases List.mem_cons.mp hz with rfl | hz
      · exact le_trans (le_max_right x z) h1
      · exact h2 z hz

/-- C1: the combined summary's heart-rate statistics are computed over the pool
of all bpm values drawn from every sample (a sample with a nested `samples`
array contributes each sub-sample's bpm); the average is the integer-rounded
mean of the pool, min and max are the pool's extrema, and an empty pool gives
three nulls. -/
theorem heartRate_pool_stats (heartRate : List HRSample) :
    allBPMs heartRate = (heartRate.map contributedBPMs).flatten ∧
    (allBPMs heartRate = [] → heartRateStats heartRate = ⟨none, none, none⟩) ∧
    (allBPMs heartRate ≠ [] →
      ∃ a mn mx, heartRateStats heartRate = ⟨some a, some mn, some mx⟩ ∧
        a = jsRound ((allBPMs heartRate).sum / ((allBPMs heartRate).length : ℚ)) ∧
        mn ∈ allBPMs heartRate ∧ (∀ y ∈ allBPMs heartRate, mn ≤ y) ∧
        mx ∈ allBPMs heartRate ∧ (∀ y ∈ allBPMs heartRate, y ≤ mx)) := by
  refine ⟨allBPMs_eq_flatten heartRate, ?_, ?_⟩
  · intro h
    simp [heartRateStats, h]
  · intro h
    rcases hp : allBPMs heartRate with _ | ⟨x, xs⟩
    · exact absurd hp h
    refine ⟨jsRound (((x :: xs).foldl (· + ·) 0) / ((x :: xs).length : ℚ)),
      xs.foldl min x, xs.foldl max x, ?_, ?_, ?_, ?_, ?_, ?_⟩
    · simp [heartRateStats, hp]
    · rw [foldl_add_eq_sum]
      simp
    · exact foldl_min_mem xs x
    · intro y hy
      rcases List.mem_cons.mp hy with rfl | hy
      · exact (foldl_min_le xs y).1
      · exact (foldl_min_le xs x).2 y hy
    · exact foldl_max_mem xs x
    · intro y hy
      rcases List.mem_cons.mp hy with rfl | hy
      · exact (foldl_max_ge xs y).1
      · exact (foldl_max_ge xs x).2 y hy

/-- A concrete payload: one record with two nested sub-samples (70, 80 bpm)
plus a plain record (96 bpm). -/
def hrExample : List HRSample :=
  [⟨none, none, none, some [⟨some 70, none, none⟩, ⟨none, some 80, none⟩]⟩,
   ⟨none, some 96, none, none⟩]

/-- C1 witness: the theorem applied to `hrExample`, whose pool is nonempty. -/
theorem heartRate_pool_stats_witness :
    ∃ a mn mx, heartRateStats hrExample = ⟨some a, some mn, some mx⟩ ∧
      a = jsRound ((allBPMs hrExample).sum / ((allBPMs hrExample).length : ℚ)) ∧
      mn ∈ allBPMs hrExample ∧ (∀ y ∈ allBPMs hrExample, mn ≤ y) ∧
      mx ∈ allBPMs hrExample ∧ (∀ y ∈ allBPMs hrExample, y ≤ mx) :=
  (heartRate_pool_stats hrExample).2.2 (by decide)

/-! ## C6 — `findLatest` inside `extractLatestTimestamps` (src/unnamed/part_002:224-233) -/

/-- A raw-sample timestamp as `findLatest` sees it: `inst` is the instant
`new Date(t)` parses to (epoch milliseconds) and `tag` identifies the raw
carrier value, since distinct raw strings can denote the same instant. -/
structure TsVal where
  inst : ℤ
  tag : ℕ
deriving DecidableEq

/-- One step of the `reduce` in `findLatest`:
`!latest || new Date(t) > new Date(latest) ? t : latest`. -/
def latestStep (latest : Option TsVal) (item : TsVal) : Option TsVal :=
  match latest with
  | none => some item
  | some c => if c.inst < item.inst then some item else some c

/-- `findLatest`: null on an empty array, else the left `reduce` of
`latestStep` starting from null. -/
def findLatest (arr : List TsVal) : Option TsVal :=
  if arr.length = 0 then none else arr.foldl latestStep none

theorem foldLatest_spec (l : List TsVal) (c : TsVal) :
    ∃ r, l.foldl latestStep (some c) = some r ∧
      (∀ t ∈ l, t.inst ≤ r.inst) ∧ c.inst ≤ r.inst ∧
      (r = c ∨ ∃ l₁ l₂, l = l₁ ++ r :: l₂ ∧ c.inst < r.inst ∧
        ∀ t ∈ l₁, t.inst < r.inst) := by
  induction l generalizing c with
  | nil => exact ⟨c, rfl, by simp, le_refl _, Or.inl rfl⟩
  | cons x xs ih =>
      simp only [List.foldl_cons, latestStep]
      by_cases hcx : c.inst < x.inst
      · rw [if_pos hcx]
        obtain ⟨r, hr, hb, hxr, hd⟩ := ih x
        refine ⟨r, hr, ?_, le_of_lt (lt_of_lt_of_le hcx hxr), Or.inr ?_⟩
        · intro t ht
          rcases List.mem_cons.mp ht with rfl | ht
          · exact hxr
          · exact hb t ht
        · rcases hd with rfl | ⟨l₁, l₂, heq, hxr', hl₁⟩
          · exact ⟨[], xs, rfl, hcx, by simp⟩
          · refine ⟨x :: l₁, l₂, by simp [heq], lt_of_lt_of_le hcx hxr, ?_⟩
            intro t ht
            rcases List.mem_cons.mp ht with rfl | ht
            · exact lt_of_le_of_lt (le_refl _) hxr'
            · exact hl₁ t ht
      · rw [if_neg hcx]
        obtain ⟨r, hr, hb, hcr, hd⟩ := ih c
        refine ⟨r, hr, ?_, hcr, ?_⟩
        · intro t ht
          rcases List.mem_cons.mp ht with rfl | ht
          · exact le_trans (le_of_not_lt hcx) hcr
          · exact hb t ht
        · rcases hd with rfl | ⟨l₁, l₂, heq, hcr', hl₁⟩
          · exact Or.inl rfl
          · refine Or.inr ⟨x :: l₁, l₂, by simp [heq], hcr', ?_⟩
            intro t ht
            rcases List.mem_cons.mp ht with rfl | ht
            · exact lt_of_le_of_lt (le_of_not_lt hcx) hcr'
            · exact hl₁ t ht

/-- C6: the per-kind latest timestamp is a left fold replacing the accumulator
only on a strictly newer timestamp, so the result is the first-seen sample
attaining the maximum (everything before it is strictly older, everything
after it no newer), and the empty array yields null. -/
theorem findLatest_first_seen (arr : List TsVal) (m : TsVal)
    (h : findLatest arr = some m) :
    (∃ l₁ l₂, arr = l₁ ++ m :: l₂ ∧ (∀ t ∈ l₁, t.inst < m.inst) ∧
      (∀ t ∈ l₂, t.inst ≤ m.inst)) ∧
    findLatest [] = none := by
  refine ⟨?_, rfl⟩
  rcases arr with _ | ⟨x, xs⟩
  · simp [findLatest] at h
  · unfold findLatest at h
    simp only [List.length_cons, List.foldl_cons] at h
    rw [if_neg (Nat.succ_ne_zero _)] at h
    have hstep : latestStep none x = some x := rfl
    rw [hstep] at h
    obtain ⟨r, hr, hb, _, hd⟩ := foldLatest_spec xs x
    rw [hr] at h
    obtain rfl : r = m := Option.some_injective _ h
    rcases hd with rfl | ⟨l₁, l₂, heq, hxm, hl₁⟩
    · refine ⟨[], xs, rfl, by simp, hb⟩
    · refine ⟨x :: l₁, l₂, by simp [heq], ?_, ?_⟩
      · intro t ht
        rcases List.mem_cons.mp ht with rfl | ht
        · exact hxm
        · exact hl₁ t ht
      · intro t ht
        exact hb t (by rw [heq]; simp [ht])

/-- C6 witness: two samples with exactly equal instants but distinct carriers;
the first-seen one (tag 0) is retained, not the last. -/
theorem findLatest_first_seen_witness :
    (∃ l₁ l₂, [TsVal.mk 5 0, TsVal.mk 5 1] = l₁ ++ TsVal.mk 5 0 :: l₂ ∧
      (∀ t ∈ l₁, t.inst < (TsVal.mk 5 0).inst) ∧
      (∀ t ∈ l₂, t.inst ≤ (TsVal.mk 5 0).inst)) ∧
    findLatest [] = none :=
  findLatest_first_seen [TsVal.mk 5 0, TsVal.mk 5 1] (TsVal.mk 5 0) (by decide)

/-! ## C5 — cross-payload latest-timestamp merge (src/unnamed/part_002:707-720) -/

/-- One key's update inside the batch merge loop:
`if (newTs && (!currentTs || new Date(newTs) > new Date(currentTs))) current = newTs`. -/
def mergeStep (cur : Option ℤ) (nw : Option ℤ) : Option ℤ :=
  match nw with
  | none => cur
  | some t =>
      match cur with
      | none => some t
      | some c => if c < t then some t else some c

/-- Merging one payload's latest-timestamp map into the accumulated map,
key by key. -/
def mergeMaps {K : Type} (cur nw : K → Option ℤ) : K → Option ℤ :=
  fun k => mergeStep (cur k) (nw k)

/-- The batch loop's accumulation of `latestTimestamps`: starts at null, adopts
the first reported map wholesale, then merges each later reported map; a
payload reporting no map (`none`) is skipped. -/
def batchMerge {K : Type} (reports : List (Option (K → Option ℤ))) :
    Option (K → Option ℤ) :=
  reports.foldl
    (fun acc om =>
      match om with
      | none => acc
      | some m =>
          match acc with
          | none => some m
          | some cur => some (mergeMaps cur m))
    none

/-- Chronological maximum of a list of instants, null when empty (the spec's
"chronological maximum over the non-null per-payload values"). -/
def chronMax (l : List ℤ) : Option ℤ :=
  l.foldl
    (fun acc t =>
      match acc with
      | none => some t
      | some c => if c < t then some t else some c)
    none

theorem batchMerge_some_fold {K : Type} (reports : List (Option (K → Option ℤ)))
    (cur : K → Option ℤ) :
    reports.foldl
      (fun acc om =>
        match om with
        | none => acc
        | some m =>
            match acc with
            | none => some m
            | some cur => some (mergeMaps cur m))
      (some cur) = some ((reports.filterMap id).foldl mergeMaps cur) := by
  induction reports generalizing cur with
  | nil => simp
  | cons o os ih =>
      cases o with
      | none => simpa using ih cur
      | some m => simpa [List.filterMap_cons] using ih (mergeMaps cur m)

theorem batchMerge_eq_fold {K : Type} (reports : List (Option (K → Option ℤ))) :
    batchMerge reports =
      match reports.filterMap id with
      | [] => none
      | m :: ms => some (ms.foldl mergeMaps m) := by
  induction reports with
  | nil => rfl
  | cons o os ih =>
      cases o with
      | none => simpa [batchMerge, List.filterMap_cons] using ih
      | some m =>
          simp only [batchMerge, List.foldl_cons, List.filterMap_cons]
          exact batchMerge_some_fold os m

theorem foldl_mergeMaps_pointwise {K : Type} (ms : List (K → Option ℤ))
    (m : K → Option ℤ) (k : K) :
    (ms.foldl mergeMaps m) k = (ms.map (fun mm => mm k)).foldl mergeStep (m k) := by
  induction ms generalizing m with
  | nil => rfl
  | cons mm mss ih => simpa using ih (mergeMaps m mm)

theorem foldl_mergeStep_filterMap (os : List (Option ℤ)) (a : Option ℤ) :
    os.foldl mergeStep a =
      (os.filterMap id).foldl
        (fun acc t =>
          match acc with
          | none => some t
          | some c => if c < t then some t else some c)
        a := by
  induction os generalizing a with
  | nil => rfl
  | cons o os ih =>
      cases o with
      | none => simpa [mergeStep] using ih a
      | some t => simpa [List.filterMap_cons, mergeStep] using ih (mergeStep a (some t))

/-- C5: after the in-order merge over a batch, the merged map records for
every kind the chronological maximum over the non-null per-payload values
reported for that kind; payloads omitting a kind (null) never erase an
earlier value. -/
theorem filterMap_bind_comp {K : Type} (reports : List (Option (K → Option ℤ)))
    (k : K) :
    reports.filterMap (fun om => om.bind (fun mm => mm k)) =
      (reports.filterMap id).filterMap (fun mm => mm k) := by
  induction reports with
  | nil => rfl
  | cons o os ih =>
      cases o with
      | none => simpa [List.filterMap_cons] using ih
      | some mm =>
          simp only [List.filterMap_cons, Option.bind_some, id]
          cases hmk : mm k <;> simp [hmk, ih]

theorem batchMerge_chronMax {K : Type} (reports : List (Option (K → Option ℤ)))
    (k : K) (h : reports.filterMap id ≠ []) :
    ∃ M, batchMerge reports = some M ∧
      M k = chronMax (reports.filterMap (fun om => om.bind (fun m => m k))) := by
  rcases hfm : reports.filterMap id with _ | ⟨m, ms⟩
  · exact absurd hfm h
  refine ⟨ms.foldl mergeMaps m, by rw [batchMerge_eq_fold, hfm], ?_⟩
  rw [filterMap_bind_comp, hfm, foldl_mergeMaps_pointwise, foldl_mergeStep_filterMap]
  have hmm : (ms.map (fun mm => mm k)).filterMap id = ms.filterMap (fun mm => mm k) := by
    rw [List.filterMap_map]
    rfl
  rw [hmm]
  unfold chronMax
  rw [List.filterMap_cons]
  cases hmk : m k with
  | none => rfl
  | some v => simp [mergeStep]

/-- First example payload map: steps (kind 0) at instant 10, heartRate
(kind 1) at instant 20. -/
def mapA : ℕ → Option ℤ :=
  fun k => if k = 0 then some 10 else if k = 1 then some 20 else none

/-- Second example payload map: steps at the newer instant 30, heartRate
omitted. -/
def mapB : ℕ → Option ℤ :=
  fun k => if k = 0 then some 30 else none

/-- C5 witness: payload A has steps=10 and heartRate=20, payload B has
steps=30 and omits heartRate; the merged map has steps=30 (the maximum) while
B's omission does not erase heartRate=20. -/
theorem batchMerge_chronMax_witness :
    (∃ M, batchMerge [some mapA, some mapB] = some M ∧
      M 0 = chronMax ([some mapA, some mapB].filterMap
        (fun om => om.bind (fun m => m 0)))) ∧
    (∃ M, batchMerge [some mapA, some mapB] = some M ∧
      M 1 = chronMax ([some mapA, some mapB].filterMap
        (fun om => om.bind (fun m => m 1)))) ∧
    chronMax ([some mapA, some mapB].filterMap (fun om => om.bind (fun m => m 0)))
      = some 30 ∧
    chronMax ([some mapA, some mapB].filterMap (fun om => om.bind (fun m => m 1)))
      = some 20 := by
  have hne : ([some mapA, some mapB] : List (Option (ℕ → Option ℤ))).filterMap id ≠ [] := by
    rw [show ([some mapA, some mapB] : List (Option (ℕ → Option ℤ))).filterMap id
      = [mapA, mapB] from rfl]
    exact List.cons_ne_nil _ _
  exact ⟨batchMerge_chronMax [some mapA, some mapB] 0 hne,
    batchMerge_chronMax [some mapA, some mapB] 1 hne, by decide, by decide⟩

/-! ## C2 — `extractTimestamp` (src/unnamed/part_002:101-122) -/

/-- A present raw timestamp field value: either `new Date(v)` parses it to an
instant, or `new Date(v).toISOString()` throws a RangeError on it. -/
inductive RawTs
  | good (t : ℤ)
  | bad
deriving DecidableEq

/-- The timestamp-bearing fields of a raw sample object; `none` models a field
that is absent or falsy (skipped by the JS `||` chain).  `timeRangeStart`
models `obj.timeRange && obj.timeRange.startTime`. -/
structure TsObj where
  time : Option RawTs
  timestamp : Option RawTs
  startTime : Option RawTs
  endTime : Option RawTs
  recordedAt : Option RawTs
  sampleTime : Option RawTs
  sampleTimestamp : Option RawTs
  timeRangeStart : Option RawTs
deriving DecidableEq

/-- What the resolver returns: a parsed instant, the caller-supplied fallback
verbatim, or `new Date().toISOString()`. -/
inductive TsResult
  | parsed (t : ℤ)
  | fromFallback (t : ℤ)
  | currentInstant
deriving DecidableEq

/-- Final `fallback || new Date().toISOString()` step. -/
def fallbackOr (fb : Option ℤ) : TsResult :=
  match fb with
  | some t => .fromFallback t
  | none => .currentInstant

/-- The `||` chain `obj.time || obj.timestamp || ... || obj.sampleTimestamp`:
the first present (truthy) candidate value, parsed or not. -/
def firstPresent (o : TsObj) : Option RawTs :=
  o.time <|> o.timestamp <|> o.startTime <|> o.endTime <|> o.recordedAt <|>
    o.sampleTime <|> o.sampleTimestamp

/-- `extractTimestamp(obj, fallback)` as written: the `||` chain commits to the
first present candidate, `new Date(possible).toISOString()` runs inside
`try`, a parse failure lands in `catch` which returns the fallback, and
`timeRange.startTime` is consulted only when every flat candidate is absent. -/
def extractTimestamp (o : Option TsObj) (fb : Option ℤ) : TsResult :=
  match o with
  | none => fallbackOr fb
  | some obj =>
      match firstPresent obj with
      | some (.good t) => .parsed t
      | some .bad => fallbackOr fb
      | none =>
          match obj.timeRangeStart with
          | some (.good t) => .parsed t
          | some .bad => fallbackOr fb
          | none => fallbackOr fb

/-- Modelled from the spec sentence of C2: a resolver that tries the ordered
candidates and skips any absent or unparseable candidate, so a later
parseable candidate still wins; only when all candidates fail does the
fallback (then the current instant) apply. -/
def claimedResolver (o : Option TsObj) (fb : Option ℤ) : TsResult :=
  match o with
  | none => fallbackOr fb
  | some obj =>
      match [obj.time, obj.timestamp, obj.startTime, obj.endTime, obj.recordedAt,
             obj.sampleTime, obj.sampleTimestamp, obj.timeRangeStart].findSome?
          (fun c =>
            match c with
            | some (RawTs.good t) => some t
            | _ => none) with
      | some t => .parsed t
      | none => fallbackOr fb

/-- C2 counterexample: `time` present but unparseable, `timestamp` parseable.
The claim says the unparseable candidate is skipped and `timestamp` wins
(instant 5); the code instead returns the caller-supplied fallback (99). -/
theorem extractTimestamp_counterexample :
    extractTimestamp
        (some ⟨some .bad, some (.good 5), none, none, none, none, none, none⟩)
        (some 99) = .fromFallback 99 ∧
    claimedResolver
        (some ⟨some .bad, some (.good 5), none, none, none, none, none, none⟩)
        (some 99) = .parsed 5 ∧
    (TsResult.fromFallback 99) ≠ (TsResult.parsed 5) :=
  ⟨rfl, rfl, by decide⟩

theorem firstPresent_eq_findSome (o : TsObj) :
    firstPresent o =
      [o.time, o.timestamp, o.startTime, o.endTime, o.recordedAt,
       o.sampleTime, o.sampleTimestamp].findSome? id := by
  rcases o with ⟨t1, t2, t3, t4, t5, t6, t7, t8⟩
  cases t1 <;> cases t2 <;> cases t3 <;> cases t4 <;> cases t5 <;> cases t6 <;>
    cases t7 <;> rfl

/-- C2 amended: absent candidates are skipped, but the first PRESENT candidate
commits the resolver — if it is unparseable the caller-supplied fallback is
returned directly and later candidates are never consulted; the nested
`timeRange.startTime` is tried only when all seven flat candidates are
absent; when the fallback is absent the current instant is used, so the
resolver is total and never raises. -/
theorem extractTimestamp_first_present (o : TsObj) (fb : Option ℤ) :
    extractTimestamp (some o) fb =
      (match [o.time, o.timestamp, o.startTime, o.endTime, o.recordedAt,
              o.sampleTime, o.sampleTimestamp].findSome? id with
       | some (.good t) => .parsed t
       | some .bad => fallbackOr fb
       | none =>
           match o.timeRangeStart with
           | some (.good t) => .parsed t
           | some .bad => fallbackOr fb
           | none => fallbackOr fb) ∧
    extractTimestamp none fb = fallbackOr fb := by
  refine ⟨?_, rfl⟩
  show (match firstPresent o with
    | some (.good t) => TsResult.parsed t
    | some .bad => fallbackOr fb
    | none =>
        match o.timeRangeStart with
        | some (.good t) => TsResult.parsed t
        | some .bad => fallbackOr fb
        | none => fallbackOr fb) = _
  rw [firstPresent_eq_findSome]

/-! ## C3 — `safeDate` and the timestamp stored by `saveStepsData`
(src/unnamed/part_002:77 and 319-337) -/

/-- A JS `Date` object as produced by `new Date(v)`: either a valid instant or
an Invalid Date.  Crucially, an Invalid Date is a truthy object. -/
inductive JsDate
  | valid (t : ℤ)
  | invalidDate
deriving DecidableEq

/-- `const safeDate = (v) => (v ? new Date(v) : null)`: a present unparseable
value becomes an Invalid Date, not null. -/
def safeDate (v : Option RawTs) : Option JsDate :=
  match v with
  | none => none
  | some (.good t) => some (.valid t)
  | some .bad => some .invalidDate

/-- The timestamp placed on one canonical steps record by `saveStepsData`:
`safeDate(r.endTime || r.timestamp || r.startTime || timestamp) || new Date()`. -/
def stepsRecordTs (endTime timestamp startTime batchTs : Option RawTs)
    (now : ℤ) : JsDate :=
  (safeDate (endTime <|> timestamp <|> startTime <|> batchTs)).getD (.valid now)

/-- C3: at the failing input — a steps sample whose only timestamp candidate is
present but unparseable — the record handed to `Steps.insertMany` carries an
Invalid Date: `safeDate` wraps the garbage in a truthy Invalid Date, so the
`|| new Date()` guard never fires and the claimed "falls back to now"
invariant is violated.  The second conjunct shows the fallback does engage
when every candidate is absent, confirming the guard's intent. -/
theorem stepsRecordTs_invalid_on_unparseable :
    stepsRecordTs (some .bad) none none none 0 = .invalidDate ∧
    stepsRecordTs none none none none 7 = .valid 7 :=
  ⟨rfl, rfl⟩

/-! ## C10 — per-item tally of the batch route (src/unnamed/part_002:689-758) -/

/-- Outcome of `processSingleHealthData` for one payload inside the batch
loop: a generated record id, or a thrown error message. -/
inductive PayloadOutcome
  | ok (recordId : ℕ)
  | err (msg : String)
deriving DecidableEq

/-- Whether the payload was saved successfully. -/
def PayloadOutcome.isOk : PayloadOutcome → Bool
  | .ok _ => true
  | .err _ => false

/-- The `results` accumulator of the batch route. `savedRecords` holds
(recordId, index) pairs, `errors` holds (index, message) pairs. -/
structure BatchTally where
  total : ℕ
  successful : ℕ
  failed : ℕ
  savedRecords : List (ℕ × ℕ)
  errors : List (ℕ × String)
deriving DecidableEq

/-- One iteration of the batch loop at index `p.1` with outcome `p.2`. -/
def batchStep (acc : BatchTally) (p : ℕ × PayloadOutcome) : BatchTally :=
  match p.2 with
  | .ok rid =>
      { acc with successful := acc.successful + 1,
                 savedRecords := acc.savedRecords ++ [(rid, p.1)] }
  | .err m =>
      { acc with failed := acc.failed + 1,
                 errors := acc.errors ++ [(p.1, m)] }

/-- The whole batch loop: `total` fixed up front, counters and lists built by
the indexed left-to-right iteration. -/
def processBatch (items : List PayloadOutcome) : BatchTally :=
  items.enum.foldl batchStep ⟨items.length, 0, 0, [], []⟩

/-- What one indexed outcome contributes to `savedRecords`. -/
def savedEntry (p : ℕ × PayloadOutcome) : Option (ℕ × ℕ) :=
  match p.2 with
  | .ok rid => some (rid, p.1)
  | .err _ => none

/-- What one indexed outcome contributes to `errors`. -/
def errorEntry (p : ℕ × PayloadOutcome) : Option (ℕ × String) :=
  match p.2 with
  | .ok _ => none
  | .err m => some (p.1, m)

theorem batchFold_spec (pairs : List (ℕ × PayloadOutcome)) (acc : BatchTally) :
    pairs.foldl batchStep acc =
      ⟨acc.total,
       acc.successful + (pairs.filter (fun p => p.2.isOk)).length,
       acc.failed + (pairs.filter (fun p => !p.2.isOk)).length,
       acc.savedRecords ++ pairs.filterMap savedEntry,
       acc.errors ++ pairs.filterMap errorEntry⟩ := by
  induction pairs generalizing acc with
  | nil => simp
  | cons p ps ih =>
      cases hp : p.2 with
      | ok rid =>
          simp only [List.foldl_cons, batchStep, hp]
          rw [ih]
          simp [List.filter_cons, List.filterMap_cons, savedEntry, errorEntry, hp,
            PayloadOutcome.isOk, Nat.add_assoc, Nat.add_comm 1]
      | err m =>
          simp only [List.foldl_cons, batchStep, hp]
          rw [ih]
          simp [List.filter_cons, List.filterMap_cons, savedEntry, errorEntry, hp,
            PayloadOutcome.isOk, Nat.add_assoc, Nat.add_comm 1]

/-- C10: the batch tally always satisfies successful + failed = total =
number of payloads, and each index lands in exactly one of `savedRecords`
(when its payload saved, with its generated id) or `errors` (when it threw). -/
theorem batch_tally_partition (items : List PayloadOutcome) (i : ℕ)
    (h : i < items.length) :
    (processBatch items).successful + (processBatch items).failed
      = (processBatch items).total ∧
    (processBatch items).total = items.length ∧
    ((∃ rid, (rid, i) ∈ (processBatch items).savedRecords) ↔
      (items.get ⟨i, h⟩).isOk = true) ∧
    ((∃ m, (i, m) ∈ (processBatch items).errors) ↔
      (items.get ⟨i, h⟩).isOk = false) := by
  have hspec := batchFold_spec items.enum ⟨items.length, 0, 0, [], []⟩
  unfold processBatch
  rw [hspec]
  refine ⟨?_, rfl, ?_, ?_⟩
  · have hacc : ∀ (l : List (ℕ × PayloadOutcome)),
        (l.filter (fun p => p.2.isOk)).length
          + (l.filter (fun p => !p.2.isOk)).length = l.length := by
      intro l
      induction l with
      | nil => rfl
      | cons p ps ihl =>
          cases hp : p.2.isOk <;>
            simp [List.filter_cons, hp, ← ihl, Nat.add_assoc, Nat.add_comm 1]
    show 0 + _ + (0 + _) = items.length
    rw [Nat.zero_add, Nat.zero_add, hacc, List.enum_length]
  · show (∃ rid, (rid, i) ∈ [] ++ items.enum.filterMap savedEntry) ↔ _
    rw [List.nil_append]
    constructor
    · rintro ⟨rid, hmem⟩
      obtain ⟨⟨j, out⟩, hin, hsv⟩ := List.mem_filterMap.mp hmem
      have hj := List.mem_enum hin
      cases out with
      | ok r =>
          simp only [savedEntry, Option.some.injEq, Prod.mk.injEq] at hsv
          have hgi : items.get ⟨i, h⟩ = PayloadOutcome.ok r := by
            rw [List.get_eq_getElem]
            have hji : j = i := hsv.2
            subst hji
            exact hj.2.symm
          rw [hgi]
          rfl
      | err m => simp [savedEntry] at hsv
    · intro hok
      rcases hget : items.get ⟨i, h⟩ with r | m
      · have hlen : i < items.enum.length := by rw [List.enum_length]; exact h
        have hin : (i, items[i]) ∈ items.enum := by
          rw [← List.getElem_enum items i hlen]
          exact List.getElem_mem hlen
        refine ⟨r, List.mem_filterMap.mpr ⟨(i, items[i]), hin, ?_⟩⟩
        rw [show items[i] = PayloadOutcome.ok r from hget]
        rfl
      · rw [hget] at hok
        simp [PayloadOutcome.isOk] at hok
  · show (∃ m, (i, m) ∈ [] ++ items.enum.filterMap errorEntry) ↔ _
    rw [List.nil_append]
    constructor
    · rintro ⟨m, hmem⟩
      obtain ⟨⟨j, out⟩, hin, hsv⟩ := List.mem_filterMap.mp hmem
      have hj := List.mem_enum hin
      cases out with
      | ok r => simp [errorEntry] at hsv
      | err msg =>
          simp only [errorEntry, Option.some.injEq, Prod.mk.injEq] at hsv
          have hgi : items.get ⟨i, h⟩ = PayloadOutcome.err msg := by
            rw [List.get_eq_getElem]
            have hji : j = i := hsv.1
            subst hji
            exact hj.2.symm
          rw [hgi]
          rfl
    · intro hok
      rcases hget : items.get ⟨i, h⟩ with r | m
      · rw [hget] at hok
        simp [PayloadOutcome.isOk] at hok
      · have hlen : i < items.enum.length := by rw [List.enum_length]; exact h
        have hin : (i, items[i]) ∈ items.enum := by
          rw [← List.getElem_enum items i hlen]
          exact List.getElem_mem hlen
        refine ⟨m, List.mem_filterMap.mpr ⟨(i, items[i]), hin, ?_⟩⟩
        rw [show items[i] = PayloadOutcome.err m from hget]
        rfl

/-- C10 witness: a three-payload batch (saved with id 7, failed, saved with
id 9) partitions as 2 successful + 1 failed = 3, and index 1 is in the error
list, not the saved list. -/
theorem batch_tally_partition_witness :
    (processBatch [.ok 7, .err "boom", .ok 9]).successful
        + (processBatch [.ok 7, .err "boom", .ok 9]).failed
      = (processBatch [.ok 7, .err "boom", .ok 9]).total ∧
    (processBatch [.ok 7, .err "boom", .ok 9]).total = 3 ∧
    ((∃ rid, (rid, 1) ∈ (processBatch [.ok 7, .err "boom", .ok 9]).savedRecords) ↔
      (([.ok 7, .err "boom", .ok 9] : List PayloadOutcome).get
        ⟨1, by decide⟩).isOk = true) ∧
    ((∃ m, (1, m) ∈ (processBatch [.ok 7, .err "boom", .ok 9]).errors) ↔
      (([.ok 7, .err "boom", .ok 9] : List PayloadOutcome).get
        ⟨1, by decide⟩).isOk = false) :=
  batch_tally_partition [.ok 7, .err "boom", .ok 9] 1 (by decide)

/-! ## C7/C8 — `flattenDeep` and `removeDuplicates` (src/unnamed/part_000:26-67)

JS strings are modelled as lists of characters (`Str`), so the regex strip
`pre.replace(/_$/, "")` and `startsWith` become list operations. -/

/-- A JS string. -/
abbrev Str := List Char

/-- The fixed separator of the flattener. -/
def sep : Char := '_'

/-- A JSON-like value as `flattenDeep` classifies it: null, non-object
scalars, date objects, arrays (opaque leaves), and plain objects whose
fields are kept in insertion order. -/
inductive JVal
  | vNull
  | num (n : ℤ)
  | str (s : Str)
  | date (t : ℤ)
  | arr (elems : List JVal)
  | obj (fields : List (Str × JVal))

/-- JS object assignment `out[k] = v` on an insertion-ordered object: an
existing key keeps its position and is overwritten, a fresh key is appended. -/
def jsInsert (out : List (Str × JVal)) (k : Str) (v : JVal) :
    List (Str × JVal) :=
  if out.any (fun p => p.1 == k) then
    out.map (fun p => if p.1 == k then (k, v) else p)
  else out ++ [(k, v)]

/-- `pre.replace(/_$/, "")`: strip one trailing separator if present. -/
def stripSep (s : Str) : Str :=
  if s.getLast? = some sep then s.dropLast else s

mutual

/-- The inner `recurse(cur, pre)` of `flattenDeep`, threading the `out`
object: null/undefined returns without writing; scalars, dates and arrays are
written as leaves under the stripped prefix; plain objects recurse key by key
in order with the key and a separator appended to the prefix. -/
def flattenRec (cur : JVal) (pre : Str) (out : List (Str × JVal)) :
    List (Str × JVal) :=
  match cur with
  | .vNull => out
  | .num n => jsInsert out (stripSep pre) (.num n)
  | .str s => jsInsert out (stripSep pre) (.str s)
  | .date t => jsInsert out (stripSep pre) (.date t)
  | .arr l => jsInsert out (stripSep pre) (.arr l)
  | .obj fields => flattenFields fields pre out

/-- The `for (const k of Object.keys(cur))` loop body. -/
def flattenFields (fields : List (Str × JVal)) (pre : Str)
    (out : List (Str × JVal)) : List (Str × JVal) :=
  match fields with
  | [] => out
  | (k, v) :: rest => flattenFields rest pre (flattenRec v (pre ++ k ++ [sep]) out)

end

/-- `flattenDeep(obj)` with the default empty prefix. -/
def flattenDeep (t : JVal) : List (Str × JVal) := flattenRec t "".data []

mutual

/-- Modelled from the spec (§4.1): the root-to-leaf paths of a JSON tree with
their leaf values, in depth-first field order; null, scalars, dates and
arrays are the leaves, object keys extend the path. -/
def leaves (t : JVal) : List (List Str × JVal) :=
  match t with
  | .obj fields => leavesFields fields
  | .vNull => [([], .vNull)]
  | .num n => [([], .num n)]
  | .str s => [([], .str s)]
  | .date d => [([], .date d)]
  | .arr l => [([], .arr l)]

/-- Leaves of an object's field list. -/
def leavesFields (fields : List (Str × JVal)) : List (List Str × JVal) :=
  match fields with
  | [] => []
  | (k, v) :: rest =>
      (leaves v).map (fun p => (k :: p.1, p.2)) ++ leavesFields rest

end

mutual

/-- Whether some leaf of the tree is null (such leaves are silently dropped
by `flattenDeep`). -/
def hasNullLeaf : JVal → Bool
  | .vNull => true
  | .obj fields => hasNullLeafFields fields
  | .num _ => false
  | .str _ => false
  | .date _ => false
  | .arr _ => false

/-- Null-leaf check over an object's field list. -/
def hasNullLeafFields : List (Str × JVal) → Bool
  | [] => false
  | (_, v) :: rest => hasNullLeaf v || hasNullLeafFields rest

end

/-- Keys joined with the single fixed separator (the spec's key for one
root-to-leaf path). -/
def joinKey : List Str → Str
  | [] => []
  | [k] => k
  | k :: k2 :: rest => k ++ sep :: joinKey (k2 :: rest)

/-- The prefix the recursion accumulates along a path: every key suffixed
with the separator. -/
def pathPre (path : List Str) : Str :=
  (path.map (fun k => k ++ [sep])).flatten

/-- Keep the entries `flattenDeep` actually writes (non-null leaves). -/
def nonNullLeaf (p : List Str × JVal) : Bool :=
  match p.2 with
  | .vNull => false
  | _ => true

theorem pathPre_cons (k : Str) (path : List Str) :
    pathPre (k :: path) = k ++ sep :: pathPre path := by
  simp [pathPre]

theorem pathPre_eq_joinKey (path : List Str) (hne : path ≠ []) :
    pathPre path = joinKey path ++ [sep] := by
  induction path with
  | nil => exact absurd rfl hne
  | cons k rest ih =>
      cases rest with
      | nil => simp [pathPre, joinKey]
      | cons k2 rest2 =>
          rw [pathPre_cons, ih (List.cons_ne_nil k2 rest2)]
          simp [joinKey]

theorem stripSep_append_sep (x : Str) : stripSep (x ++ [sep]) = x := by
  unfold stripSep
  rw [List.getLast?_concat, if_pos rfl, List.dropLast_concat]

theorem stripSep_pathPre (pre : Str) (path : List Str) :
    stripSep (pre ++ pathPre path) =
      if path = [] then stripSep pre else pre ++ joinKey path := by
  cases hp : path with
  | nil => simp [pathPre]
  | cons k rest =>
      rw [if_neg (List.cons_ne_nil k rest)]
      rw [pathPre_eq_joinKey (k :: rest) (List.cons_ne_nil k rest)]
      rw [← List.append_assoc]
      exact stripSep_append_sep (pre ++ joinKey (k :: rest))

theorem stripSep_pathPre_nil (path : List Str) :
    stripSep (pathPre path) = joinKey path := by
  have h := stripSep_pathPre [] path
  rw [List.nil_append] at h
  rw [h]
  cases path with
  | nil => rfl
  | cons k rest => rw [if_neg (List.cons_ne_nil k rest), List.nil_append]

mutual

theorem flattenRec_eq_foldl (cur : JVal) (pre : Str) (out : List (Str × JVal)) :
    flattenRec cur pre out =
      ((leaves cur).filter nonNullLeaf).foldl
        (fun o p => jsInsert o (stripSep (pre ++ pathPre p.1)) p.2) out := by
  match cur with
  | .vNull => simp [flattenRec, leaves, nonNullLeaf]
  | .num n => simp [flattenRec, leaves, nonNullLeaf, pathPre]
  | .str s => simp [flattenRec, leaves, nonNullLeaf, pathPre]
  | .date t => simp [flattenRec, leaves, nonNullLeaf, pathPre]
  | .arr l => simp [flattenRec, leaves, nonNullLeaf, pathPre]
  | .obj fields =>
      rw [show flattenRec (.obj fields) pre out = flattenFields fields pre out from rfl]
      rw [show leaves (.obj fields) = leavesFields fields from rfl]
      exact flattenFields_eq_foldl fields pre out

theorem flattenFields_eq_foldl (fields : List (Str × JVal)) (pre : Str)
    (out : List (Str × JVal)) :
    flattenFields fields pre out =
      ((leavesFields fields).filter nonNullLeaf).foldl
        (fun o p => jsInsert o (stripSep (pre ++ pathPre p.1)) p.2) out := by
  match fields with
  | [] => rfl
  | (k, v) :: rest =>
      rw [show flattenFields ((k, v) :: rest) pre out
        = flattenFields rest pre (flattenRec v (pre ++ k ++ [sep]) out) from rfl]
      rw [show leavesFields ((k, v) :: rest)
        = (leaves v).map (fun p => (k :: p.1, p.2)) ++ leavesFields rest from rfl]
      rw [flattenFields_eq_foldl rest pre, flattenRec_eq_foldl v (pre ++ k ++ [sep]) out]
      rw [List.filter_append, List.foldl_append]
      have hcomm : (nonNullLeaf ∘ fun p : List Str × JVal => (k :: p.1, p.2))
          = nonNullLeaf := by
        funext p
        rfl
      rw [List.filter_map, hcomm, List.foldl_map]
      congr 1
      congr 1
      funext o p
      simp [pathPre_cons, List.append_assoc]

end

mutual

theorem leaves_nonNull_of_no_null (t : JVal) (h : hasNullLeaf t = false) :
    ∀ p ∈ leaves t, nonNullLeaf p = true := by
  match t with
  | .vNull => simp [hasNullLeaf] at h
  | .num n =>
      intro p hp
      rw [show leaves (.num n) = [([], .num n)] from rfl] at hp
      rw [List.mem_singleton.mp hp]
      rfl
  | .str s =>
      intro p hp
      rw [show leaves (.str s) = [([], .str s)] from rfl] at hp
      rw [List.mem_singleton.mp hp]
      rfl
  | .date d =>
      intro p hp
      rw [show leaves (.date d) = [([], .date d)] from rfl] at hp
      rw [List.mem_singleton.mp hp]
      rfl
  | .arr l =>
      intro p hp
      rw [show leaves (.arr l) = [([], .arr l)] from rfl] at hp
      rw [List.mem_singleton.mp hp]
      rfl
  | .obj fields =>
      intro p hp
      rw [show leaves (.obj fields) = leavesFields fields from rfl] at hp
      exact leavesFields_nonNull_of_no_null fields h p hp

theorem leavesFields_nonNull_of_no_null (fields : List (Str × JVal))
    (h : hasNullLeafFields fields = false) :
    ∀ p ∈ leavesFields fields, nonNullLeaf p = true := by
  match fields with
  | [] =>
      intro p hp
      rw [show leavesFields [] = ([] : List (List Str × JVal)) from rfl] at hp
      exact absurd hp (List.not_mem_nil p)
  | (k, v) :: rest =>
      intro p hp
      rw [show hasNullLeafFields ((k, v) :: rest)
        = (hasNullLeaf v || hasNullLeafFields rest) from rfl] at h
      obtain ⟨hv, hrest⟩ := Bool.or_eq_false_iff.mp h
      rw [show leavesFields ((k, v) :: rest)
        = (leaves v).map (fun p => (k :: p.1, p.2)) ++ leavesFields rest from rfl] at hp
      rcases List.mem_append.mp hp with hp | hp
      · obtain ⟨q, hq, rfl⟩ := List.mem_map.mp hp
        have := leaves_nonNull_of_no_null v hv q hq
        simpa [nonNullLeaf] using this
      · exact leavesFields_nonNull_of_no_null rest hrest p hp

end

theorem jsInsert_fresh (out : List (Str × JVal)) (k : Str) (v : JVal)
    (h : ∀ q ∈ out, q.1 ≠ k) : jsInsert out k v = out ++ [(k, v)] := by
  unfold jsInsert
  rw [if_neg]
  intro hc
  obtain ⟨q, hq, he⟩ := List.any_eq_true.mp hc
  exact h q hq (by simpa using he)

theorem foldl_jsInsert_eq_append (pairs : List (Str × JVal)) :
    ∀ (out : List (Str × JVal)),
      (∀ p ∈ pairs, ∀ q ∈ out, p.1 ≠ q.1) →
      (pairs.map Prod.fst).Nodup →
      pairs.foldl (fun o p => jsInsert o p.1 p.2) out = out ++ pairs := by
  induction pairs with
  | nil =>
      intro out _ _
      simp only [List.foldl_nil, List.append_nil]
  | cons p ps ih =>
      intro out hdisj hnodup
      rw [List.map_cons, List.nodup_cons] at hnodup
      simp only [List.foldl_cons]
      rw [jsInsert_fresh out p.1 p.2
        (fun q hq => (hdisj p (List.mem_cons_self p ps) q hq).symm)]
      rw [ih (out ++ [(p.1, p.2)]) ?_ hnodup.2]
      · simp
      · intro r hr q hq
        rcases List.mem_append.mp hq with hq | hq
        · exact hdisj r (List.mem_cons_of_mem p hr) q hq
        · rw [List.mem_singleton.mp hq]
          intro he
          exact hnodup.1 (he ▸ List.mem_map_of_mem Prod.fst hr)

/-- C7 counterexample: `{a: null}` has one root-to-leaf path (null is a leaf
by the spec's own leaf definition), yet `flattenDeep` emits no key for it. -/
theorem flattenDeep_counterexample :
    flattenDeep (.obj [(['a'], .vNull)]) = [] ∧
    (leaves (.obj [(['a'], .vNull)])).length = 1 :=
  ⟨rfl, rfl⟩

/-- C7 amended: for an acyclic object tree with no arrays or date-like values
at inner positions, no null leaves, and pairwise distinct joined path keys,
`flattenDeep` produces exactly one entry per root-to-leaf path in depth-first
order, the key being the path joined with the single separator (trailing
separator stripped); empty nested objects contribute no keys and empty input
yields the empty mapping. -/
theorem flattenDeep_one_key_per_path (t : JVal)
    (hnull : hasNullLeaf t = false)
    (hnodup : ((leaves t).map (fun p => joinKey p.1)).Nodup) :
    flattenDeep t = (leaves t).map (fun p => (joinKey p.1, p.2)) := by
  unfold flattenDeep
  rw [flattenRec_eq_foldl]
  rw [List.filter_eq_self.mpr (leaves_nonNull_of_no_null t hnull)]
  have hkey : (fun (o : List (Str × JVal)) (p : List Str × JVal) =>
      jsInsert o (stripSep (String.data "" ++ pathPre p.1)) p.2)
      = fun o p => jsInsert o (joinKey p.1) p.2 := by
    funext o p
    rw [show String.data "" = ([] : Str) from rfl, List.nil_append,
      stripSep_pathPre_nil]
  rw [hkey]
  have hmap : (leaves t).foldl (fun o p => jsInsert o (joinKey p.1) p.2) []
      = ((leaves t).map (fun p => (joinKey p.1, p.2))).foldl
          (fun o p => jsInsert o p.1 p.2) [] := by
    rw [List.foldl_map]
  have hnodup2 : (((leaves t).map (fun p => (joinKey p.1, p.2))).map Prod.fst).Nodup := by
    rw [List.map_map]
    exact hnodup
  rw [hmap, foldl_jsInsert_eq_append _ []
    (fun p _ q hq => absurd hq (List.not_mem_nil q)) hnodup2, List.nil_append]

/-- The example tree `{a: {b: 1, c: {d: 2}}}`. -/
def flattenExample : JVal :=
  .obj [(['a'], .obj [(['b'], .num 1), (['c'], .obj [(['d'], .num 2)])])]

/-- C7 witness: the theorem applied to `{a:{b:1,c:{d:2}}}`, which flattens to
`{a_b: 1, a_c_d: 2}`. -/
theorem flattenDeep_one_key_per_path_witness :
    flattenDeep flattenExample
      = (leaves flattenExample).map (fun p => (joinKey p.1, p.2)) ∧
    flattenDeep flattenExample
      = [(['a', '_', 'b'], .num 1), (['a', '_', 'c', '_', 'd'], .num 2)] :=
  ⟨flattenDeep_one_key_per_path flattenExample rfl (by decide), rfl⟩

/-- `removeDuplicates(base, flat)` as written: copy each entry of `flat`
unless its key equals a base key, extends one by the separator, or extends
one by a doubled separator (a redundant third check kept from the source). -/
def removeDuplicates (base flat : List (Str × JVal)) : List (Str × JVal) :=
  flat.foldl
    (fun cleaned p =>
      if base.any (fun bp =>
          p.1 == bp.1 || (bp.1 ++ [sep]).isPrefixOf p.1 ||
            (bp.1 ++ [sep, sep]).isPrefixOf p.1) then
        cleaned
      else jsInsert cleaned p.1 p.2)
    []

/-- The spec's duplicate test: the key exactly equals a base key or is a
separator-prefixed descendant of one. -/
def dupOfBase (base : List (Str × JVal)) (k : Str) : Bool :=
  base.any (fun bp => k == bp.1 || (bp.1 ++ [sep]).isPrefixOf k)

theorem dup_check_redundant (base : List (Str × JVal)) (k : Str) :
    base.any (fun bp =>
        k == bp.1 || (bp.1 ++ [sep]).isPrefixOf k ||
          (bp.1 ++ [sep, sep]).isPrefixOf k) = dupOfBase base k := by
  unfold dupOfBase
  induction base with
  | nil => rfl
  | cons bp bs ih =>
      simp only [List.any_cons, ih]
      congr 1
      by_cases h2 : (bp.1 ++ [sep, sep]).isPrefixOf k = true
      · have h1 : (bp.1 ++ [sep]).isPrefixOf k = true := by
          rw [List.isPrefixOf_iff_prefix] at h2 ⊢
          refine List.IsPrefix.trans ?_ h2
          rw [show bp.1 ++ [sep, sep] = (bp.1 ++ [sep]) ++ [sep] by simp]
          exact List.prefix_append _ _
        rw [h1, h2]
        simp
      · rw [Bool.eq_false_iff.mpr h2]
        simp

theorem foldl_removeDup_general (base : List (Str × JVal))
    (flat : List (Str × JVal)) :
    ∀ (acc : List (Str × JVal)),
      (∀ p ∈ flat, ∀ q ∈ acc, p.1 ≠ q.1) →
      (flat.map Prod.fst).Nodup →
      flat.foldl
        (fun cleaned p =>
          if base.any (fun bp =>
              p.1 == bp.1 || (bp.1 ++ [sep]).isPrefixOf p.1 ||
                (bp.1 ++ [sep, sep]).isPrefixOf p.1) then
            cleaned
          else jsInsert cleaned p.1 p.2)
        acc = acc ++ flat.filter (fun p => !dupOfBase base p.1) := by
  induction flat with
  | nil =>
      intro acc _ _
      simp only [List.foldl_nil, List.filter_nil, List.append_nil]
  | cons p ps ih =>
      intro acc hdisj hnodup
      rw [List.map_cons, List.nodup_cons] at hnodup
      simp only [List.foldl_cons, List.filter_cons]
      rw [dup_check_redundant base p.1]
      cases hdup : dupOfBase base p.1 with
      | true =>
          rw [if_pos rfl]
          simp only [Bool.not_true]
          exact ih acc (fun r hr => hdisj r (List.mem_cons_of_mem p hr)) hnodup.2
      | false =>
          rw [if_neg (by simp)]
          rw [jsInsert_fresh acc p.1 p.2
            (fun q hq => (hdisj p (List.mem_cons_self p ps) q hq).symm)]
          simp only [Bool.not_false]
          rw [ih (acc ++ [(p.1, p.2)]) ?_ hnodup.2]
          · simp
          · intro r hr q hq
            rcases List.mem_append.mp hq with hq | hq
            · exact hdisj r (List.mem_cons_of_mem p hr) q hq
            · rw [List.mem_singleton.mp hq]
              intro he
              exact hnodup.1 (he ▸ List.mem_map_of_mem Prod.fst hr)

/-- C8: `removeDuplicates(base, flat)` keeps exactly the entries of `flat`
whose key neither equals a base key nor starts with a base key followed by
the separator, with values unchanged and order preserved; the Boolean test is
equivalently the spec's "equals or separator-prefixed descendant" relation. -/
theorem removeDuplicates_eq_filter (base flat : List (Str × JVal))
    (hnodup : (flat.map Prod.fst).Nodup) :
    removeDuplicates base flat
      = flat.filter (fun p => !dupOfBase base p.1) ∧
    ∀ k, dupOfBase base k = true ↔
      ∃ bk ∈ base.map Prod.fst, k = bk ∨ bk ++ [sep] <+: k := by
  constructor
  · unfold removeDuplicates
    rw [foldl_removeDup_general base flat [] (by simp) hnodup]
    simp
  · intro k
    unfold dupOfBase
    rw [List.any_eq_true]
    constructor
    · rintro ⟨bp, hbp, he⟩
      rcases Bool.or_eq_true_iff.mp he with he | he
      · exact ⟨bp.1, List.mem_map_of_mem Prod.fst hbp, Or.inl (by simpa using he)⟩
      · exact ⟨bp.1, List.mem_map_of_mem Prod.fst hbp,
          Or.inr (List.isPrefixOf_iff_prefix.mp he)⟩
    · rintro ⟨bk, hbk, hor⟩
      obtain ⟨bp, hbp, rfl⟩ := List.mem_map.mp hbk
      refine ⟨bp, hbp, ?_⟩
      rcases hor with rfl | hpre
      · simp
      · rw [Bool.or_eq_true_iff]
        exact Or.inr (List.isPrefixOf_iff_prefix.mpr hpre)

/-- C8 witness: `removeDuplicates({x:1}, {x:5, x_y:2, z:3}) = {z:3}`. -/
theorem removeDuplicates_eq_filter_witness :
    (removeDuplicates [(['x'], .num 1)]
        [(['x'], .num 5), (['x', '_', 'y'], .num 2), (['z'], .num 3)]
      = [(['x'], .num 5), (['x', '_', 'y'], .num 2), (['z'], .num 3)].filter
          (fun p => !dupOfBase [(['x'], .num 1)] p.1)) ∧
    removeDuplicates [(['x'], .num 1)]
        [(['x'], .num 5), (['x', '_', 'y'], .num 2), (['z'], .num 3)]
      = [(['z'], .num 3)] :=
  ⟨(removeDuplicates_eq_filter [(['x'], .num 1)]
      [(['x'], .num 5), (['x', '_', 'y'], .num 2), (['z'], .num 3)]
      (by decide)).1, rfl⟩

/-! ## C4/C9 — temporal downsampling in GET /healthdata/:userId/:metric
(src/unnamed/part_004:962-1036) -/

/-- Milliseconds per UTC day. -/
def dayMs : ℤ := 86400000

/-- One persisted record as the downsampler sees it: epoch-millisecond
timestamp, discriminator type string, and an identity tag distinguishing
otherwise-equal records. -/
structure DRec where
  ts : ℤ
  typ : String
  tag : ℕ
deriving DecidableEq

/-- UTC calendar day of a record (`item.timestamp.toISOString().slice(0,10)`):
floor division of the epoch milliseconds by the day length, which is in
bijection with the UTC date string. -/
def dayOf (r : DRec) : ℤ := r.ts.ediv dayMs

/-- One step of the `reduce` building `groupByDay`: push onto the existing day
bucket, else add a new day key at the end (JS object insertion order). -/
def addToGroup (acc : List (ℤ × List DRec)) (r : DRec) : List (ℤ × List DRec) :=
  if acc.any (fun g => g.1 == dayOf r) then
    acc.map (fun g => if g.1 == dayOf r then (g.1, g.2 ++ [r]) else g)
  else acc ++ [(dayOf r, [r])]

/-- `groupByDay`: buckets in first-seen day order, contents in input order. -/
def groupByDay (l : List DRec) : List (ℤ × List DRec) := l.foldl addToGroup []

/-- The generic weekly per-day selection: one record passes through, more than
one keeps `dayArr[0]` and `dayArr[dayArr.length - 1]`. -/
def firstLast : List DRec → List DRec
  | [] => []
  | [a] => [a]
  | a :: b :: rest => [a, (b :: rest).getLast (List.cons_ne_nil b rest)]

/-- The monthly per-day selection: only `dayArr[0]`. -/
def firstOnly : List DRec → List DRec
  | [] => []
  | a :: _ => [a]

/-- The blood-pressure weekly per-day selection: a singleton day passes
through unchanged whatever its type; otherwise first and last are taken
independently from the systolic and from the diastolic sub-array (records of
any other type are dropped). -/
def bpDaySel (dayArr : List DRec) : List DRec :=
  match dayArr with
  | [] => []
  | [a] => [a]
  | _ :: _ :: _ =>
      firstLast (dayArr.filter (fun d => d.typ == "systolic")) ++
        firstLast (dayArr.filter (fun d => d.typ == "diastolic"))

/-- The ascending-timestamp order of the final
`filtered.sort((a, b) => new Date(a.timestamp) - new Date(b.timestamp))`. -/
def tsLE (a b : DRec) : Prop := a.ts ≤ b.ts

instance : DecidableRel tsLE := fun a b => inferInstanceAs (Decidable (a.ts ≤ b.ts))

instance : IsTotal DRec tsLE := ⟨fun a b => Int.le_total a.ts b.ts⟩

instance : IsTrans DRec tsLE := ⟨fun _ _ _ h1 h2 => le_trans h1 h2⟩

/-- The stable JS `Array.prototype.sort` under the timestamp comparator,
modelled by stable insertion sort. -/
def sortByTs (l : List DRec) : List DRec := l.insertionSort tsLE

/-- The weekly branch: group by day, keep first and last per day, re-sort. -/
def weeklyReduce (l : List DRec) : List DRec :=
  sortByTs (((groupByDay l).map (fun g => firstLast g.2)).flatten)

/-- The monthly branch: group by day, keep the first per day, re-sort. -/
def monthlyReduce (l : List DRec) : List DRec :=
  sortByTs (((groupByDay l).map (fun g => firstOnly g.2)).flatten)

/-- The blood-pressure weekly/monthly branch: group by day, per-discriminator
first-and-last per day, re-sort. -/
def bpWeeklyReduce (l : List DRec) : List DRec :=
  sortByTs (((groupByDay l).map (fun g => bpDaySel g.2)).flatten)

theorem dayOf_mono {a b : DRec} (h : a.ts ≤ b.ts) : dayOf a ≤ dayOf b :=
  Int.ediv_le_ediv (by norm_num [dayMs]) h

theorem ts_lt_of_dayOf_lt {a b : DRec} (h : dayOf a < dayOf b) : a.ts < b.ts := by
  by_contra hc
  exact absurd (dayOf_mono (le_of_not_lt hc)) (not_le.mpr h)

theorem firstLast_subset (l : List DRec) : ∀ x ∈ firstLast l, x ∈ l := by
  match l with
  | [] => simp [firstLast]
  | [a] => simp [firstLast]
  | a :: b :: rest =>
      intro x hx
      rw [show firstLast (a :: b :: rest)
        = [a, (b :: rest).getLast (List.cons_ne_nil b rest)] from rfl] at hx
      rcases List.mem_cons.mp hx with rfl | hx
      · exact List.mem_cons_self _ _
      · rw [List.mem_singleton.mp hx]
        exact List.mem_cons_of_mem a (List.getLast_mem _)

theorem firstOnly_subset (l : List DRec) : ∀ x ∈ firstOnly l, x ∈ l := by
  match l with
  | [] => simp [firstOnly]
  | a :: rest =>
      intro x hx
      rw [show firstOnly (a :: rest) = [a] from rfl] at hx
      rw [List.mem_singleton.mp hx]
      exact List.mem_cons_self _ _

theorem bpDaySel_subset (l : List DRec) : ∀ x ∈ bpDaySel l, x ∈ l := by
  match l with
  | [] => simp [bpDaySel]
  | [a] => simp [bpDaySel]
  | a :: b :: rest =>
      intro x hx
      rw [show bpDaySel (a :: b :: rest)
        = firstLast ((a :: b :: rest).filter (fun d => d.typ == "systolic")) ++
            firstLast ((a :: b :: rest).filter (fun d => d.typ == "diastolic"))
        from rfl] at hx
      rcases List.mem_append.mp hx with hx | hx
      · exact List.mem_of_mem_filter (firstLast_subset _ x hx)
      · exact List.mem_of_mem_filter (firstLast_subset _ x hx)

theorem firstLast_length_le (l : List DRec) : (firstLast l).length ≤ 2 := by
  match l with
  | [] => simp [firstLast]
  | [a] => simp [firstLast]
  | a :: b :: rest => simp [firstLast]

theorem firstLast_eq_self (l : List DRec) (h : l.length ≤ 2) :
    firstLast l = l := by
  match l with
  | [] => rfl
  | [a] => rfl
  | [a, b] => rfl
  | a :: b :: c :: rest => simp at h

theorem firstLast_ne_nil (l : List DRec) (h : l ≠ []) : firstLast l ≠ [] := by
  match l with
  | [] => exact absurd rfl h
  | [a] => simp [firstLast]
  | a :: b :: rest => simp [firstLast]

theorem firstLast_sorted (l : List DRec) (h : List.Sorted tsLE l) :
    List.Sorted tsLE (firstLast l) := by
  match l with
  | [] => simp [firstLast]
  | [a] => simp [firstLast]
  | a :: b :: rest =>
      rw [show firstLast (a :: b :: rest)
        = [a, (b :: rest).getLast (List.cons_ne_nil b rest)] from rfl]
      refine List.sorted_cons.mpr ⟨?_, List.sorted_singleton _⟩
      intro x hx
      rw [List.mem_singleton.mp hx]
      exact (List.sorted_cons.mp h).1 _ (List.getLast_mem _)

theorem firstOnly_sorted (l : List DRec) :
    List.Sorted tsLE (firstOnly l) := by
  match l with
  | [] => simp [firstOnly]
  | a :: rest => simp [firstOnly, List.sorted_singleton]

/-- Well-formedness of a grouping accumulator: nonempty buckets whose records
all carry the bucket's day, with pairwise distinct day keys. -/
def GWF (acc : List (ℤ × List DRec)) : Prop :=
  (∀ g ∈ acc, g.2 ≠ [] ∧ ∀ r ∈ g.2, dayOf r = g.1) ∧ (acc.map Prod.fst).Nodup

theorem addToGroup_keys_of_mem (acc : List (ℤ × List DRec)) (r : DRec)
    (h : acc.any (fun g => g.1 == dayOf r) = true) :
    (addToGroup acc r).map Prod.fst = acc.map Prod.fst := by
  unfold addToGroup
  rw [if_pos h, List.map_map]
  apply List.map_congr_left
  intro g _
  by_cases hg : g.1 = dayOf r <;> simp [hg]

theorem gwf_addToGroup (acc : List (ℤ × List DRec)) (r : DRec) (h : GWF acc) :
    GWF (addToGroup acc r) := by
  obtain ⟨hwf, hkeys⟩ := h
  by_cases hany : acc.any (fun g => g.1 == dayOf r) = true
  · refine ⟨?_, by rw [addToGroup_keys_of_mem acc r hany]; exact hkeys⟩
    intro g hg
    unfold addToGroup at hg
    rw [if_pos hany] at hg
    obtain ⟨g0, hg0, rfl⟩ := List.mem_map.mp hg
    by_cases hc : g0.1 == dayOf r
    · rw [if_pos hc]
      refine ⟨by simp, ?_⟩
      intro x hx
      rcases List.mem_append.mp hx with hx | hx
      · exact (hwf g0 hg0).2 x hx
      · rw [List.mem_singleton.mp hx]
        exact (beq_iff_eq.mp hc).symm
    · rw [if_neg hc]
      exact hwf g0 hg0
  · unfold addToGroup
    rw [if_neg hany]
    refine ⟨?_, ?_⟩
    · intro g hg
      rcases List.mem_append.mp hg with hg | hg
      · exact hwf g hg
      · rw [List.mem_singleton.mp hg]
        exact ⟨by simp, by simp⟩
    · rw [List.map_append]
      refine List.Nodup.append hkeys (by simp) ?_
      intro a ha hb
      rw [show (List.map Prod.fst [(dayOf r, [r])]) = [dayOf r] from rfl] at hb
      rw [List.mem_singleton.mp hb] at ha
      obtain ⟨g, hg, hgf⟩ := List.mem_map.mp ha
      rw [Bool.not_eq_true] at hany
      have := List.any_eq_false.mp hany g hg
      rw [hgf] at this
      simp at this

theorem gwf_groupByDay_fold (l : List DRec) :
    ∀ (acc : List (ℤ × List DRec)), GWF acc → GWF (l.foldl addToGroup acc) := by
  induction l with
  | nil => intro acc h; exact h
  | cons r rest ih =>
      intro acc h
      exact ih (addToGroup acc r) (gwf_addToGroup acc r h)

theorem gwf_groupByDay (l : List DRec) : GWF (groupByDay l) :=
  gwf_groupByDay_fold l [] ⟨by simp, by simp⟩

/-- The concatenated contents of the day-`d` buckets of a grouping. -/
def bucketFlat (gs : List (ℤ × List DRec)) (d : ℤ) : List DRec :=
  ((gs.filter (fun g => g.1 == d)).map Prod.snd).flatten

theorem filter_eq_nil_of_not_key (gs : List (ℤ × List DRec)) (d : ℤ)
    (h : d ∉ gs.map Prod.fst) : gs.filter (fun g => g.1 == d) = [] := by
  induction gs with
  | nil => rfl
  | cons g rest ih =>
      rw [List.map_cons] at h
      rw [List.filter_cons, if_neg ?_]
      · exact ih (fun hc => h (List.mem_cons_of_mem _ hc))
      · intro hc
        exact h (by rw [beq_iff_eq.mp hc]; exact List.mem_cons_self _ _)

theorem filter_singleton_of_nodup (gs : List (ℤ × List DRec)) (d : ℤ)
    (hnodup : (gs.map Prod.fst).Nodup)
    (hany : gs.any (fun g => g.1 == d) = true) :
    ∃ b, gs.filter (fun g => g.1 == d) = [(d, b)] := by
  induction gs with
  | nil => simp at hany
  | cons g rest ih =>
      rw [List.map_cons, List.nodup_cons] at hnodup
      by_cases hg : g.1 == d
      · refine ⟨g.2, ?_⟩
        rw [List.filter_cons, if_pos hg]
        rw [filter_eq_nil_of_not_key rest d
          (by rw [← beq_iff_eq.mp hg]; exact hnodup.1)]
        rw [show g = (g.1, g.2) from rfl, beq_iff_eq.mp hg]
      · rw [List.filter_cons, if_neg (by simp [hg])]
        rw [List.any_cons] at hany
        rcases Bool.or_eq_true_iff.mp hany with hc | hc
        · exact absurd hc (by simp [hg])
        · exact ih hnodup.2 hc

theorem addToGroup_content (acc : List (ℤ × List DRec)) (r : DRec) (d : ℤ)
    (h : GWF acc) :
    bucketFlat (addToGroup acc r) d
      = bucketFlat acc d ++ (if dayOf r = d then [r] else []) := by
  obtain ⟨hwf, hkeys⟩ := h
  by_cases hany : acc.any (fun g => g.1 == dayOf r) = true
  · unfold bucketFlat addToGroup
    rw [if_pos hany, List.filter_map]
    have hpf : ((fun g : ℤ × List DRec => g.1 == d) ∘ fun g =>
        if g.1 == dayOf r then (g.1, g.2 ++ [r]) else g) = fun g => g.1 == d := by
      funext g
      by_cases hg : g.1 = dayOf r <;> simp [hg]
    rw [hpf, List.map_map]
    by_cases hd : dayOf r = d
    · subst hd
      obtain ⟨b, hb⟩ := filter_singleton_of_nodup acc (dayOf r) hkeys hany
      rw [hb, if_pos rfl]
      simp
    · rw [if_neg hd, List.append_nil]
      congr 1
      apply List.map_congr_left
      intro g hg
      have hgd : g.1 = d := by simpa using List.of_mem_filter hg
      have hne : (g.1 == dayOf r) = false := by
        rw [beq_eq_false_iff_ne, hgd]
        exact fun hc => hd hc.symm
      simp [Function.comp, hne]
  · unfold bucketFlat addToGroup
    rw [if_neg hany, List.filter_append, List.map_append, List.flatten_append]
    congr 1
    by_cases hd : dayOf r = d
    · subst hd
      rw [List.filter_cons, if_pos (by simp), if_pos rfl]
      simp
    · have hne : ((dayOf r, [r]).1 == d) = false := beq_eq_false_iff_ne.mpr hd
      rw [List.filter_cons, if_neg (by simp [hne]), if_neg hd]
      rfl

theorem groupFold_content (l : List DRec) (d : ℤ) :
    ∀ (acc : List (ℤ × List DRec)), GWF acc →
      bucketFlat (l.foldl addToGroup acc) d
        = bucketFlat acc d ++ l.filter (fun r => dayOf r == d) := by
  induction l with
  | nil =>
      intro acc _
      simp
  | cons r rest ih =>
      intro acc hacc
      simp only [List.foldl_cons, List.filter_cons]
      rw [ih (addToGroup acc r) (gwf_addToGroup acc r hacc)]
      rw [addToGroup_content acc r d hacc]
      by_cases hd : dayOf r = d
      · rw [if_pos hd, if_pos (by simp [hd])]
        simp
      · rw [if_neg hd, if_neg (by simp [beq_eq_false_iff_ne.mpr hd])]
        simp

theorem groupByDay_content (l : List DRec) (d : ℤ) :
    bucketFlat (groupByDay l) d = l.filter (fun r => dayOf r == d) := by
  have := groupFold_content l d [] ⟨by simp, by simp⟩
  simpa [bucketFlat] using this

theorem foldl_addToGroup_same_day (c : List DRec) (d : ℤ) :
    ∀ (b : List DRec), (∀ x ∈ c, dayOf x = d) →
      c.foldl addToGroup [(d, b)] = [(d, b ++ c)] := by
  induction c with
  | nil =>
      intro b _
      simp
  | cons x cs ih =>
      intro b hc
      simp only [List.foldl_cons]
      have hx : dayOf x = d := hc x (List.mem_cons_self _ _)
      have hstep : addToGroup [(d, b)] x = [(d, b ++ [x])] := by
        unfold addToGroup
        rw [if_pos (by simp [hx])]
        simp [hx]
      rw [hstep, ih (b ++ [x]) (fun y hy => hc y (List.mem_cons_of_mem _ hy))]
      simp

theorem groupByDay_single_chunk (c : List DRec) (d : ℤ) (hne : c ≠ [])
    (hd : ∀ x ∈ c, dayOf x = d) : groupByDay c = [(d, c)] := by
  rcases c with _ | ⟨x, cs⟩
  · exact absurd rfl hne
  · unfold groupByDay
    simp only [List.foldl_cons]
    have hx : dayOf x = d := hd x (List.mem_cons_self _ _)
    have hstep : addToGroup [] x = [(d, [x])] := by
      unfold addToGroup
      rw [if_neg (by simp)]
      simp [hx]
    rw [hstep, foldl_addToGroup_same_day cs d [x]
      (fun y hy => hd y (List.mem_cons_of_mem _ hy))]
    simp

theorem foldl_addToGroup_append_acc (l : List DRec) :
    ∀ (acc1 acc2 : List (ℤ × List DRec)),
      (∀ r ∈ l, dayOf r ∉ acc1.map Prod.fst) →
      l.foldl addToGroup (acc1 ++ acc2) = acc1 ++ l.foldl addToGroup acc2 := by
  induction l with
  | nil =>
      intro acc1 acc2 _
      simp
  | cons r rest ih =>
      intro acc1 acc2 hdisj
      simp only [List.foldl_cons]
      have hr : dayOf r ∉ acc1.map Prod.fst := hdisj r (List.mem_cons_self _ _)
      have hany1 : acc1.any (fun g => g.1 == dayOf r) = false := by
        rw [List.any_eq_false]
        intro g hg hc
        exact hr (by rw [← beq_iff_eq.mp hc]; exact List.mem_map_of_mem Prod.fst hg)
      have hstep : addToGroup (acc1 ++ acc2) r = acc1 ++ addToGroup acc2 r := by
        unfold addToGroup
        rw [List.any_append, hany1, Bool.false_or]
        by_cases h2 : acc2.any (fun g => g.1 == dayOf r) = true
        · rw [if_pos h2, if_pos h2, List.map_append]
          congr 1
          rw [show List.map (fun g : ℤ × List DRec =>
              if g.1 == dayOf r then (g.1, g.2 ++ [r]) else g) acc1
            = List.map id acc1 from List.map_congr_left ?_, List.map_id]
          intro g hg
          have hne : (g.1 == dayOf r) = false := by
            rw [beq_eq_false_iff_ne]
            intro hc
            exact hr (hc ▸ List.mem_map_of_mem Prod.fst hg)
          simp [hne]
        · rw [if_neg h2, if_neg h2, List.append_assoc]
      rw [hstep, ih acc1 (addToGroup acc2 r)
        (fun y hy => hdisj y (List.mem_cons_of_mem _ hy))]

theorem mem_bucketFlat (gs : List (ℤ × List DRec)) (g : ℤ × List DRec)
    (hg : g ∈ gs) (x : DRec) (hx : x ∈ g.2) : x ∈ bucketFlat gs g.1 := by
  unfold bucketFlat
  rw [List.mem_flatten]
  exact ⟨g.2, List.mem_map_of_mem Prod.snd (List.mem_filter.mpr ⟨hg, by simp⟩), hx⟩

theorem groupByDay_keys_mem (l : List DRec) :
    ∀ g ∈ groupByDay l, ∃ r ∈ l, dayOf r = g.1 := by
  intro g hg
  obtain ⟨hwf, _⟩ := gwf_groupByDay l
  obtain ⟨hne, _⟩ := hwf g hg
  rcases hx : g.2 with _ | ⟨x, rest⟩
  · exact absurd hx hne
  have hxin : x ∈ bucketFlat (groupByDay l) g.1 :=
    mem_bucketFlat _ g hg x (by rw [hx]; exact List.mem_cons_self _ _)
  rw [groupByDay_content] at hxin
  obtain ⟨hxl, hxd⟩ := List.mem_filter.mp hxin
  exact ⟨x, hxl, beq_iff_eq.mp hxd⟩

theorem groupByDay_bucket_eq (l : List DRec) (g : ℤ × List DRec)
    (hg : g ∈ groupByDay l) : g.2 = l.filter (fun r => dayOf r == g.1) := by
  have hkeys := (gwf_groupByDay l).2
  have hany : (groupByDay l).any (fun h => h.1 == g.1) = true :=
    List.any_eq_true.mpr ⟨g, hg, by simp⟩
  obtain ⟨b, hb⟩ := filter_singleton_of_nodup _ g.1 hkeys hany
  have hgmem : g ∈ (groupByDay l).filter (fun h => h.1 == g.1) :=
    List.mem_filter.mpr ⟨hg, by simp⟩
  rw [hb, List.mem_singleton] at hgmem
  have hbf := groupByDay_content l g.1
  rw [bucketFlat, hb] at hbf
  simp only [List.map_cons, List.map_nil, List.flatten_cons, List.flatten_nil,
    List.append_nil] at hbf
  rw [hgmem]
  exact hbf

theorem dropWhile_head_false (p : DRec → Bool) (l : List DRec) (h : DRec)
    (t : List DRec) (he : l.dropWhile p = h :: t) : p h = false := by
  induction l with
  | nil => simp at he
  | cons a l' ih =>
      rw [List.dropWhile_cons] at he
      by_cases ha : p a = true
      · rw [if_pos ha] at he
        exact ih he
      · rw [if_neg ha] at he
        rw [← (List.cons.injEq ..).mp he |>.1]
        exact Bool.eq_false_iff.mpr ha

theorem groupByDay_sorted_struct :
    ∀ (n : ℕ) (l : List DRec), l.length ≤ n → List.Sorted tsLE l →
      ((groupByDay l).map Prod.snd).flatten = l ∧
      List.Pairwise (fun g h : ℤ × List DRec => g.1 < h.1) (groupByDay l) := by
  intro n
  induction n with
  | zero =>
      intro l hl _
      rw [List.length_eq_zero.mp (Nat.le_zero.mp hl)]
      exact ⟨rfl, List.Pairwise.nil⟩
  | succ n ih =>
      intro l hl hsort
      rcases l with _ | ⟨x, xs⟩
      · exact ⟨rfl, List.Pairwise.nil⟩
      set p := fun y : DRec => dayOf y == dayOf x with hp
      have hpx : p x = true := by simp [hp]
      set c := (x :: xs).takeWhile p with hc
      set rest := (x :: xs).dropWhile p with hrest
      have hsplit : c ++ rest = x :: xs := List.takeWhile_append_dropWhile p (x :: xs)
      have hc_day : ∀ y ∈ c, dayOf y = dayOf x := by
        intro y hy
        rw [hc] at hy
        have hpy := List.mem_takeWhile_imp hy
        simpa [hp] using hpy
      have hc_ne : c ≠ [] := by
        rw [hc, List.takeWhile_cons, if_pos hpx]
        exact List.cons_ne_nil _ _
      have hrest_sub : rest.Sublist (x :: xs) := List.dropWhile_sublist p
      have hrest_sorted : List.Sorted tsLE rest := hsort.sublist hrest_sub
      have hx_le : ∀ y ∈ xs, tsLE x y := (List.sorted_cons.mp hsort).1
      have hrest_gt : ∀ y ∈ rest, dayOf x < dayOf y := by
        rcases hr : rest with _ | ⟨h, t⟩
        · simp
        · have hph : p h = false :=
            dropWhile_head_false p (x :: xs) h t (hrest.symm.trans hr)
          have hhl : h ∈ x :: xs :=
            hrest_sub.mem (by rw [hr]; exact List.mem_cons_self _ _)
          have hhx : dayOf x ≤ dayOf h := by
            rcases List.mem_cons.mp hhl with rfl | hh
            · exact le_refl _
            · exact dayOf_mono (hx_le h hh)
          have hhne : dayOf h ≠ dayOf x := by
            intro hcon
            rw [hp] at hph
            simp [hcon] at hph
          have hhgt : dayOf x < dayOf h := lt_of_le_of_ne hhx (fun hcon =>
            hhne hcon.symm)
          intro y hy
          rcases List.mem_cons.mp hy with rfl | hyt
          · exact hhgt
          · have : tsLE h y := (List.sorted_cons.mp (hr ▸ hrest_sorted)).1 y hyt
            exact lt_of_lt_of_le hhgt (dayOf_mono this)
      have hrest_len : rest.length ≤ n := by
        rw [hrest, List.dropWhile_cons, if_pos hpx]
        calc (xs.dropWhile p).length ≤ xs.length :=
              (List.dropWhile_sublist p).length_le
          _ ≤ n := by simpa using hl
      obtain ⟨ihflat, ihpw⟩ := ih rest hrest_len hrest_sorted
      have hdecomp : groupByDay (x :: xs)
          = (dayOf x, c) :: groupByDay rest := by
        rw [← hsplit]
        unfold groupByDay
        rw [List.foldl_append]
        rw [show c.foldl addToGroup [] = groupByDay c from rfl]
        rw [groupByDay_single_chunk c (dayOf x) hc_ne hc_day]
        rw [show ([(dayOf x, c)] : List (ℤ × List DRec))
          = [(dayOf x, c)] ++ [] from by simp]
        rw [foldl_addToGroup_append_acc rest [(dayOf x, c)] [] ?_]
        · rfl
        · intro r hr
          simp only [List.map_cons, List.map_nil, List.mem_singleton]
          exact fun hcon => absurd (hcon ▸ hrest_gt r hr) (lt_irrefl _)
      rw [hdecomp]
      constructor
      · simp only [List.map_cons, List.flatten_cons]
        rw [ihflat, hsplit]
      · refine List.Pairwise.cons ?_ ihpw
        intro g hg
        obtain ⟨r, hrl, hrd⟩ := groupByDay_keys_mem rest g hg
        exact hrd ▸ hrest_gt r hrl

theorem groupByDay_sorted_flatten (l : List DRec) (h : List.Sorted tsLE l) :
    ((groupByDay l).map Prod.snd).flatten = l :=
  (groupByDay_sorted_struct l.length l le_rfl h).1

theorem groupByDay_sorted_keys (l : List DRec) (h : List.Sorted tsLE l) :
    List.Pairwise (fun g h : ℤ × List DRec => g.1 < h.1) (groupByDay l) :=
  (groupByDay_sorted_struct l.length l le_rfl h).2

theorem orderedInsert_all_le (x : DRec) (s : List DRec)
    (h : ∀ b ∈ s, tsLE x b) : List.orderedInsert tsLE x s = x :: s := by
  cases s with
  | nil => rfl
  | cons b t =>
      simp only [List.orderedInsert]
      rw [if_pos (h b (List.mem_cons_self _ _))]

theorem orderedInsert_skip (x : DRec) (s1 : List DRec) :
    ∀ (s2 : List DRec), (∀ b ∈ s1, ¬ tsLE x b) →
      List.orderedInsert tsLE x (s1 ++ s2)
        = s1 ++ List.orderedInsert tsLE x s2 := by
  induction s1 with
  | nil =>
      intro s2 _
      simp
  | cons a s1' ih =>
      intro s2 h
      rw [List.cons_append]
      simp only [List.orderedInsert]
      rw [if_neg (h a (List.mem_cons_self _ _)),
        ih s2 (fun b hb => h b (List.mem_cons_of_mem _ hb)), List.cons_append]

theorem orderedInsert_append_right (x : DRec) (s1 : List DRec) :
    ∀ (s2 : List DRec), (∀ b ∈ s2, tsLE x b) →
      List.orderedInsert tsLE x (s1 ++ s2)
        = (List.orderedInsert tsLE x s1) ++ s2 := by
  induction s1 with
  | nil =>
      intro s2 h
      rw [List.nil_append, orderedInsert_all_le x s2 h]
      rfl
  | cons a s1' ih =>
      intro s2 h
      rw [List.cons_append]
      simp only [List.orderedInsert]
      by_cases hxa : tsLE x a
      · rw [if_pos hxa, if_pos hxa]
        rfl
      · rw [if_neg hxa, if_neg hxa, ih s2 h, List.cons_append]

theorem insertionSort_append (l1 : List DRec) :
    ∀ (l2 : List DRec), (∀ a ∈ l1, ∀ b ∈ l2, tsLE a b) →
      List.insertionSort tsLE (l1 ++ l2)
        = List.insertionSort tsLE l1 ++ List.insertionSort tsLE l2 := by
  induction l1 with
  | nil =>
      intro l2 _
      simp
  | cons x l1' ih =>
      intro l2 h
      rw [List.cons_append]
      simp only [List.insertionSort]
      rw [ih l2 (fun a ha => h a (List.mem_cons_of_mem _ ha))]
      exact orderedInsert_append_right x (List.insertionSort tsLE l1') _
        (fun b hb => h x (List.mem_cons_self _ _) b
          ((List.perm_insertionSort tsLE l2).mem_iff.mp hb))

theorem filter_orderedInsert (q : DRec → Bool) (x : DRec) (s : List DRec)
    (hs : List.Sorted tsLE s) :
    (List.orderedInsert tsLE x s).filter q =
      if q x then List.orderedInsert tsLE x (s.filter q) else s.filter q := by
  induction s with
  | nil =>
      by_cases hq : q x = true <;>
        simp [List.orderedInsert, List.filter_cons, hq]
  | cons b t ih =>
      obtain ⟨hb, ht⟩ := List.sorted_cons.mp hs
      simp only [List.orderedInsert]
      by_cases hxb : tsLE x b
      · rw [if_pos hxb]
        have hxall : ∀ c ∈ (b :: t).filter q, tsLE x c := by
          intro c hc
          rcases List.mem_cons.mp (List.mem_of_mem_filter hc) with rfl | hct
          · exact hxb
          · exact le_trans hxb (hb c hct)
        rw [List.filter_cons, orderedInsert_all_le x _ hxall]
      · rw [if_neg hxb, List.filter_cons, ih ht]
        conv_rhs => rw [List.filter_cons]
        by_cases hqb : q b = true
        · rw [if_pos hqb, if_pos hqb]
          by_cases hq : q x = true
          · rw [if_pos hq, if_pos hq]
            conv_rhs => simp only [List.orderedInsert]
            rw [if_neg hxb]
          · rw [if_neg hq, if_neg hq]
        · rw [if_neg hqb, if_neg hqb]

theorem filter_insertionSort (q : DRec → Bool) (l : List DRec) :
    (List.insertionSort tsLE l).filter q
      = List.insertionSort tsLE (l.filter q) := by
  induction l with
  | nil => rfl
  | cons x t ih =>
      simp only [List.insertionSort]
      rw [filter_orderedInsert q x _ (List.sorted_insertionSort tsLE t), ih,
        List.filter_cons]
      by_cases hq : q x = true
      · rw [if_pos hq, if_pos hq]
        simp only [List.insertionSort]
      · rw [if_neg hq, if_neg hq]

theorem insertionSort_flatten (cs : List (List DRec))
    (h : List.Pairwise (fun c1 c2 => ∀ a ∈ c1, ∀ b ∈ c2, tsLE a b) cs) :
    List.insertionSort tsLE cs.flatten
      = (cs.map (List.insertionSort tsLE)).flatten := by
  induction cs with
  | nil => rfl
  | cons c cs' ih =>
      obtain ⟨hc, hcs⟩ := List.pairwise_cons.mp h
      rw [List.flatten_cons, List.map_cons, List.flatten_cons]
      rw [insertionSort_append c cs'.flatten ?_, ih hcs]
      intro a ha b hb
      obtain ⟨c2, hc2, hbc2⟩ := List.mem_flatten.mp hb
      exact hc c2 hc2 a ha b hbc2

theorem chunks_cross_pairwise (l : List DRec) (hl : List.Sorted tsLE l)
    (sel : List DRec → List DRec) (hsub : ∀ b, ∀ x ∈ sel b, x ∈ b) :
    List.Pairwise (fun c1 c2 => ∀ a ∈ c1, ∀ b ∈ c2, tsLE a b)
      ((groupByDay l).map (fun g => sel g.2)) := by
  rw [List.pairwise_map]
  refine List.Pairwise.imp_of_mem ?_ (groupByDay_sorted_keys l hl)
  intro g1 g2 hg1 hg2 hk a ha b hb
  have hwf := (gwf_groupByDay l).1
  have hda : dayOf a = g1.1 := (hwf g1 hg1).2 a (hsub g1.2 a ha)
  have hdb : dayOf b = g2.1 := (hwf g2 hg2).2 b (hsub g2.2 b hb)
  exact le_of_lt (ts_lt_of_dayOf_lt (by rw [hda, hdb]; exact hk))

theorem reduce_sorted_form (sel : List DRec → List DRec)
    (hsub : ∀ b, ∀ x ∈ sel b, x ∈ b) (l : List DRec)
    (hl : List.Sorted tsLE l) :
    sortByTs (((groupByDay l).map (fun g => sel g.2)).flatten)
      = ((groupByDay l).map
          (fun g => List.insertionSort tsLE (sel g.2))).flatten := by
  unfold sortByTs
  rw [insertionSort_flatten _ (chunks_cross_pairwise l hl sel hsub), List.map_map]
  rfl

theorem sorted_flatten_of_chunks (cs : List (List DRec))
    (hall : ∀ c ∈ cs, List.Sorted tsLE c)
    (hcross : List.Pairwise (fun c1 c2 => ∀ a ∈ c1, ∀ b ∈ c2, tsLE a b) cs) :
    List.Sorted tsLE cs.flatten := by
  induction cs with
  | nil => simp
  | cons c cs' ih =>
      obtain ⟨hc, hcs⟩ := List.pairwise_cons.mp hcross
      rw [List.flatten_cons]
      rw [List.Sorted, List.pairwise_append]
      refine ⟨hall c (List.mem_cons_self _ _),
        ih (fun x hx => hall x (List.mem_cons_of_mem _ hx)) hcs, ?_⟩
      intro a ha b hb
      obtain ⟨c2, hc2, hbc2⟩ := List.mem_flatten.mp hb
      exact hc c2 hc2 a ha b hbc2

theorem groupByDay_flatten_chunks (gs : List (ℤ × List DRec))
    (hwf : ∀ g ∈ gs, ∀ r ∈ g.2, dayOf r = g.1)
    (hkeys : List.Pairwise (fun g h : ℤ × List DRec => g.1 < h.1) gs) :
    groupByDay ((gs.map Prod.snd).flatten)
      = gs.filter (fun g => !g.2.isEmpty) := by
  induction gs with
  | nil => rfl
  | cons g rest ih =>
      obtain ⟨hgk, hrk⟩ := List.pairwise_cons.mp hkeys
      have hrest := ih (fun h hh => hwf h (List.mem_cons_of_mem _ hh)) hrk
      simp only [List.map_cons, List.flatten_cons, List.filter_cons]
      rcases hge : g.2 with _ | ⟨x, xs⟩
      · rw [List.nil_append]
        rw [if_neg (by simp)]
        exact hrest
      · rw [if_pos (by simp [hge])]
        have hday : ∀ y ∈ g.2, dayOf y = g.1 :=
          hwf g (List.mem_cons_self _ _)
        have hne : g.2 ≠ [] := by rw [hge]; exact List.cons_ne_nil _ _
        unfold groupByDay
        rw [List.foldl_append]
        rw [← hge]
        rw [show g.2.foldl addToGroup [] = groupByDay g.2 from rfl]
        rw [groupByDay_single_chunk g.2 g.1 hne hday]
        rw [show ([(g.1, g.2)] : List (ℤ × List DRec))
          = [(g.1, g.2)] ++ [] from by simp]
        rw [foldl_addToGroup_append_acc _ [(g.1, g.2)] [] ?_]
        · rw [show ((rest.map Prod.snd).flatten.foldl addToGroup [])
            = groupByDay ((rest.map Prod.snd).flatten) from rfl]
          rw [hrest]
          rfl
        · intro r hr
          obtain ⟨b, hbm, hrb⟩ := List.mem_flatten.mp hr
          obtain ⟨g2, hg2, rfl⟩ := List.mem_map.mp hbm
          have : dayOf r = g2.1 := hwf g2 (List.mem_cons_of_mem _ hg2) r hrb
          simp only [List.map_cons, List.map_nil, List.mem_singleton]
          rw [this]
          exact fun hcon => absurd (hcon ▸ hgk g2 hg2) (lt_irrefl _)

theorem flatten_filter_nonempty (gs : List (ℤ × List DRec)) :
    (((gs.filter (fun g => !g.2.isEmpty)).map Prod.snd)).flatten
      = ((gs.map Prod.snd)).flatten := by
  induction gs with
  | nil => rfl
  | cons g rest ih =>
      rw [List.filter_cons]
      rcases hge : g.2 with _ | ⟨x, xs⟩
      · rw [if_neg (by simp [hge])]
        simp only [List.map_cons, List.flatten_cons, hge, List.nil_append]
        exact ih
      · rw [if_pos (by simp [hge])]
        simp only [List.map_cons, List.flatten_cons]
        rw [ih]

theorem bucket_sorted (l : List DRec) (hl : List.Sorted tsLE l)
    (g : ℤ × List DRec) (hg : g ∈ groupByDay l) : List.Sorted tsLE g.2 := by
  rw [groupByDay_bucket_eq l g hg]
  exact List.Pairwise.filter _ hl

theorem weeklyReduce_sorted_form (l : List DRec) (hl : List.Sorted tsLE l) :
    weeklyReduce l = ((groupByDay l).map (fun g => firstLast g.2)).flatten := by
  unfold weeklyReduce
  rw [reduce_sorted_form firstLast firstLast_subset l hl]
  congr 1
  apply List.map_congr_left
  intro g hg
  exact List.Sorted.insertionSort_eq (firstLast_sorted g.2 (bucket_sorted l hl g hg))

theorem monthlyReduce_sorted_form (l : List DRec) (hl : List.Sorted tsLE l) :
    monthlyReduce l = ((groupByDay l).map (fun g => firstOnly g.2)).flatten := by
  unfold monthlyReduce
  rw [reduce_sorted_form firstOnly firstOnly_subset l hl]
  congr 1
  apply List.map_congr_left
  intro g _
  exact List.Sorted.insertionSort_eq (firstOnly_sorted g.2)

theorem bpWeeklyReduce_sorted_form (l : List DRec) (hl : List.Sorted tsLE l) :
    bpWeeklyReduce l
      = ((groupByDay l).map
          (fun g => List.insertionSort tsLE (bpDaySel g.2))).flatten := by
  unfold bpWeeklyReduce
  exact reduce_sorted_form bpDaySel bpDaySel_subset l hl

theorem filter_typ_bpDaySel (b : List DRec) (tm : String)
    (htm : tm = "systolic" ∨ tm = "diastolic") :
    (bpDaySel b).filter (fun r => r.typ == tm)
      = firstLast (b.filter (fun r => r.typ == tm)) := by
  match b with
  | [] => rfl
  | [a] =>
      rw [show bpDaySel [a] = [a] from rfl]
      simp only [List.filter_cons, List.filter_nil]
      by_cases ha : (a.typ == tm) = true <;> simp [ha, firstLast]
  | x :: y :: rest =>
      rw [show bpDaySel (x :: y :: rest)
        = firstLast ((x :: y :: rest).filter (fun d => d.typ == "systolic")) ++
            firstLast ((x :: y :: rest).filter (fun d => d.typ == "diastolic"))
        from rfl]
      rw [List.filter_append]
      rcases htm with rfl | rfl
      · have h1 : (firstLast ((x :: y :: rest).filter
            (fun d => d.typ == "systolic"))).filter (fun r => r.typ == "systolic")
            = firstLast ((x :: y :: rest).filter (fun d => d.typ == "systolic")) := by
          rw [List.filter_eq_self]
          intro a ha
          simpa using List.of_mem_filter (firstLast_subset _ a ha)
        have h2 : (firstLast ((x :: y :: rest).filter
            (fun d => d.typ == "diastolic"))).filter (fun r => r.typ == "systolic")
            = [] := by
          rw [List.filter_eq_nil_iff]
          intro a ha
          have := List.of_mem_filter (firstLast_subset _ a ha)
          rw [beq_iff_eq.mp this]
          simp
        rw [h1, h2, List.append_nil]
      · have h1 : (firstLast ((x :: y :: rest).filter
            (fun d => d.typ == "systolic"))).filter (fun r => r.typ == "diastolic")
            = [] := by
          rw [List.filter_eq_nil_iff]
          intro a ha
          have := List.of_mem_filter (firstLast_subset _ a ha)
          rw [beq_iff_eq.mp this]
          simp
        have h2 : (firstLast ((x :: y :: rest).filter
            (fun d => d.typ == "diastolic"))).filter (fun r => r.typ == "diastolic")
            = firstLast ((x :: y :: rest).filter (fun d => d.typ == "diastolic")) := by
          rw [List.filter_eq_self]
          intro a ha
          simpa using List.of_mem_filter (firstLast_subset _ a ha)
        rw [h1, h2, List.nil_append]

theorem flatten_map_key (gs : List (ℤ × List DRec))
    (F : ℤ × List DRec → List DRec) (d : ℤ)
    (hz : ∀ g ∈ gs, g.1 ≠ d → F g = []) :
    (gs.map F).flatten = ((gs.filter (fun g => g.1 == d)).map F).flatten := by
  induction gs with
  | nil => rfl
  | cons g rest ih =>
      simp only [List.map_cons, List.flatten_cons, List.filter_cons]
      by_cases hg : g.1 = d
      · rw [if_pos (by simp [hg])]
        simp only [List.map_cons, List.flatten_cons]
        rw [ih (fun h hh => hz h (List.mem_cons_of_mem _ hh))]
      · rw [if_neg (by simp [hg])]
        rw [hz g (List.mem_cons_self _ _) hg, List.nil_append,
          ih (fun h hh => hz h (List.mem_cons_of_mem _ hh))]

theorem filter_day_typ_comm (l : List DRec) (d : ℤ) (tm : String) :
    l.filter (fun r => dayOf r == d && r.typ == tm)
      = (l.filter (fun r => dayOf r == d)).filter (fun r => r.typ == tm) := by
  rw [List.filter_filter]
  apply List.filter_congr
  intro a _
  exact Bool.and_comm _ _

theorem bp_filter_discriminator (l : List DRec) (d : ℤ)
    (hl : List.Sorted tsLE l) (tm : String)
    (htm : tm = "systolic" ∨ tm = "diastolic") :
    (bpWeeklyReduce l).filter (fun r => dayOf r == d && r.typ == tm)
      = firstLast (l.filter (fun r => dayOf r == d && r.typ == tm)) := by
  unfold bpWeeklyReduce sortByTs
  rw [filter_insertionSort, List.filter_flatten, List.map_map]
  have hwf := (gwf_groupByDay l).1
  have hz : ∀ g ∈ groupByDay l, g.1 ≠ d →
      (List.filter (fun r => dayOf r == d && r.typ == tm) ∘
        fun g => bpDaySel g.2) g = [] := by
    intro g hg hgd
    rw [Function.comp_apply, List.filter_eq_nil_iff]
    intro a ha
    have had : dayOf a = g.1 := (hwf g hg).2 a (bpDaySel_subset g.2 a ha)
    simp [had, hgd]
  rw [flatten_map_key _ _ d hz]
  by_cases hany : (groupByDay l).any (fun g => g.1 == d) = true
  · obtain ⟨b, hb⟩ := filter_singleton_of_nodup _ d (gwf_groupByDay l).2 hany
    rw [hb]
    have hmem : (d, b) ∈ groupByDay l := by
      have : (d, b) ∈ (groupByDay l).filter (fun g => g.1 == d) := by
        rw [hb]
        exact List.mem_cons_self _ _
      exact List.mem_of_mem_filter this
    have hbl : b = l.filter (fun r => dayOf r == d) :=
      groupByDay_bucket_eq l (d, b) hmem
    simp only [List.map_cons, List.map_nil, List.flatten_cons, List.flatten_nil,
      List.append_nil, Function.comp_apply]
    have hdayb : ∀ r ∈ b, dayOf r = d := (hwf (d, b) hmem).2
    have hcongr : (bpDaySel b).filter (fun r => dayOf r == d && r.typ == tm)
        = (bpDaySel b).filter (fun r => r.typ == tm) := by
      apply List.filter_congr
      intro a ha
      have := hdayb a (bpDaySel_subset b a ha)
      simp [this]
    rw [hcongr, filter_typ_bpDaySel b tm htm]
    have hfin : b.filter (fun r => r.typ == tm)
        = l.filter (fun r => dayOf r == d && r.typ == tm) := by
      rw [filter_day_typ_comm, hbl]
    rw [hfin]
    apply List.Sorted.insertionSort_eq
    apply firstLast_sorted
    exact List.Pairwise.filter _ hl
  · have hnk : d ∉ (groupByDay l).map Prod.fst := by
      intro hc
      obtain ⟨g, hg, hgf⟩ := List.mem_map.mp hc
      rw [Bool.not_eq_true] at hany
      have := List.any_eq_false.mp hany g hg
      rw [hgf] at this
      simp at this
    rw [filter_eq_nil_of_not_key _ d hnk]
    have hlf : l.filter (fun r => dayOf r == d) = [] := by
      have := groupByDay_content l d
      rw [bucketFlat, filter_eq_nil_of_not_key _ d hnk] at this
      simpa using this.symm
    rw [filter_day_typ_comm, hlf]
    rfl

/-- C4: for a time-ascending blood-pressure series at weekly granularity, the
first-and-last selection within each UTC day is applied independently per
discriminator value — the systolic records of the output restricted to any
day are exactly first-and-last of the input's systolic records of that day,
and likewise for diastolic — and the final output is sorted ascending by
timestamp. -/
theorem bp_weekly_per_discriminator (l : List DRec) (d : ℤ)
    (hl : List.Sorted tsLE l)
    (_htypes : ∀ r ∈ l, r.typ = "systolic" ∨ r.typ = "diastolic") :
    ((bpWeeklyReduce l).filter (fun r => dayOf r == d && r.typ == "systolic")
        = firstLast (l.filter (fun r => dayOf r == d && r.typ == "systolic"))) ∧
    ((bpWeeklyReduce l).filter (fun r => dayOf r == d && r.typ == "diastolic")
        = firstLast (l.filter (fun r => dayOf r == d && r.typ == "diastolic"))) ∧
    List.Sorted tsLE (bpWeeklyReduce l) :=
  ⟨bp_filter_discriminator l d hl "systolic" (Or.inl rfl),
   bp_filter_discriminator l d hl "diastolic" (Or.inr rfl),
   List.sorted_insertionSort tsLE _⟩

/-- A day with three systolic and two diastolic records, time-ascending. -/
def bpExample : List DRec :=
  [⟨100, "systolic", 0⟩, ⟨150, "diastolic", 1⟩, ⟨200, "systolic", 2⟩,
   ⟨250, "diastolic", 3⟩, ⟨300, "systolic", 4⟩]

/-- C4 witness: on `bpExample` (3 systolic + 2 diastolic in one UTC day) the
downsample keeps exactly 2 systolic and 2 diastolic records for that day. -/
theorem bp_weekly_per_discriminator_witness :
    (((bpWeeklyReduce bpExample).filter
        (fun r => dayOf r == 0 && r.typ == "systolic")
        = firstLast (bpExample.filter
            (fun r => dayOf r == 0 && r.typ == "systolic"))) ∧
     ((bpWeeklyReduce bpExample).filter
        (fun r => dayOf r == 0 && r.typ == "diastolic")
        = firstLast (bpExample.filter
            (fun r => dayOf r == 0 && r.typ == "diastolic"))) ∧
     List.Sorted tsLE (bpWeeklyReduce bpExample)) ∧
    ((bpWeeklyReduce bpExample).filter
        (fun r => dayOf r == 0 && r.typ == "systolic")).length = 2 ∧
    ((bpWeeklyReduce bpExample).filter
        (fun r => dayOf r == 0 && r.typ == "diastolic")).length = 2 :=
  ⟨bp_weekly_per_discriminator bpExample 0 (by decide) (by decide),
   by decide, by decide⟩

theorem out_groupByDay (l : List DRec) (hl : List.Sorted tsLE l)
    (F : List DRec → List DRec) (hsubF : ∀ b, ∀ x ∈ F b, x ∈ b) :
    groupByDay (((groupByDay l).map (fun g => F g.2)).flatten)
      = ((groupByDay l).map (fun g => (g.1, F g.2))).filter
          (fun g => !g.2.isEmpty) := by
  have h1 : ((groupByDay l).map (fun g => F g.2))
      = (((groupByDay l).map (fun g => (g.1, F g.2))).map Prod.snd) := by
    rw [List.map_map]
    rfl
  rw [h1]
  apply groupByDay_flatten_chunks
  · intro g hg r hr
    obtain ⟨g0, hg0, rfl⟩ := List.mem_map.mp hg
    exact ((gwf_groupByDay l).1 g0 hg0).2 r (hsubF g0.2 r hr)
  · rw [List.pairwise_map]
    exact groupByDay_sorted_keys l hl

theorem weekly_idem (l : List DRec) (hl : List.Sorted tsLE l) :
    weeklyReduce (weeklyReduce l) = weeklyReduce l := by
  have hs : List.Sorted tsLE (weeklyReduce l) := List.sorted_insertionSort tsLE _
  rw [weeklyReduce_sorted_form (weeklyReduce l) hs]
  have hgs : groupByDay (weeklyReduce l)
      = ((groupByDay l).map (fun g => (g.1, firstLast g.2))).filter
          (fun g => !g.2.isEmpty) := by
    conv_lhs => rw [weeklyReduce_sorted_form l hl]
    exact out_groupByDay l hl firstLast firstLast_subset
  have hfe : ((groupByDay l).map (fun g => (g.1, firstLast g.2))).filter
      (fun g => !g.2.isEmpty)
      = (groupByDay l).map (fun g => (g.1, firstLast g.2)) := by
    rw [List.filter_eq_self]
    intro g hg
    obtain ⟨g0, hg0, rfl⟩ := List.mem_map.mp hg
    have hne := ((gwf_groupByDay l).1 g0 hg0).1
    simp only [Bool.not_eq_true', List.isEmpty_iff]
    simpa using firstLast_ne_nil g0.2 hne
  rw [hgs, hfe, List.map_map]
  rw [weeklyReduce_sorted_form l hl]
  apply congrArg
  apply List.map_congr_left
  intro g _
  show firstLast (firstLast g.2) = firstLast g.2
  exact firstLast_eq_self _ (firstLast_length_le g.2)

theorem firstOnly_length_le (l : List DRec) : (firstOnly l).length ≤ 1 := by
  cases l <;> simp [firstOnly]

theorem firstOnly_eq_self (l : List DRec) (h : l.length ≤ 1) :
    firstOnly l = l := by
  match l with
  | [] => rfl
  | [a] => rfl
  | a :: b :: rest => simp at h

theorem firstOnly_ne_nil (l : List DRec) (h : l ≠ []) : firstOnly l ≠ [] := by
  cases l with
  | nil => exact absurd rfl h
  | cons a rest => simp [firstOnly]

theorem monthly_idem (l : List DRec) (hl : List.Sorted tsLE l) :
    monthlyReduce (monthlyReduce l) = monthlyReduce l := by
  have hs : List.Sorted tsLE (monthlyReduce l) := List.sorted_insertionSort tsLE _
  rw [monthlyReduce_sorted_form (monthlyReduce l) hs]
  have hgs : groupByDay (monthlyReduce l)
      = ((groupByDay l).map (fun g => (g.1, firstOnly g.2))).filter
          (fun g => !g.2.isEmpty) := by
    conv_lhs => rw [monthlyReduce_sorted_form l hl]
    exact out_groupByDay l hl firstOnly firstOnly_subset
  have hfe : ((groupByDay l).map (fun g => (g.1, firstOnly g.2))).filter
      (fun g => !g.2.isEmpty)
      = (groupByDay l).map (fun g => (g.1, firstOnly g.2)) := by
    rw [List.filter_eq_self]
    intro g hg
    obtain ⟨g0, hg0, rfl⟩ := List.mem_map.mp hg
    have hne := ((gwf_groupByDay l).1 g0 hg0).1
    simp only [Bool.not_eq_true', List.isEmpty_iff]
    simpa using firstOnly_ne_nil g0.2 hne
  rw [hgs, hfe, List.map_map]
  rw [monthlyReduce_sorted_form l hl]
  apply congrArg
  apply List.map_congr_left
  intro g _
  show firstOnly (firstOnly g.2) = firstOnly g.2
  exact firstOnly_eq_self _ (firstOnly_length_le g.2)

theorem bp_chunk_idem (b : List DRec) (hb : List.Sorted tsLE b) :
    List.insertionSort tsLE
        (bpDaySel (List.insertionSort tsLE (bpDaySel b)))
      = List.insertionSort tsLE (bpDaySel b) := by
  match b, hb with
  | [], _ => rfl
  | [a], _ => rfl
  | x :: y :: rest, hb =>
      have hcs : (List.insertionSort tsLE (bpDaySel (x :: y :: rest))).filter
          (fun r => r.typ == "systolic")
          = firstLast ((x :: y :: rest).filter (fun r => r.typ == "systolic")) := by
        rw [filter_insertionSort,
          filter_typ_bpDaySel (x :: y :: rest) "systolic" (Or.inl rfl)]
        exact List.Sorted.insertionSort_eq
          (firstLast_sorted _ (List.Pairwise.filter _ hb))
      have hcd : (List.insertionSort tsLE (bpDaySel (x :: y :: rest))).filter
          (fun r => r.typ == "diastolic")
          = firstLast ((x :: y :: rest).filter (fun r => r.typ == "diastolic")) := by
        rw [filter_insertionSort,
          filter_typ_bpDaySel (x :: y :: rest) "diastolic" (Or.inr rfl)]
        exact List.Sorted.insertionSort_eq
          (firstLast_sorted _ (List.Pairwise.filter _ hb))
      rcases hc : List.insertionSort tsLE (bpDaySel (x :: y :: rest)) with
        _ | ⟨c1, ct⟩
      · rfl
      · rcases ct with _ | ⟨c2, ct2⟩
        · rfl
        · rw [hc] at hcs hcd
          have hsel : bpDaySel (c1 :: c2 :: ct2)
              = bpDaySel (x :: y :: rest) := by
            rw [show bpDaySel (c1 :: c2 :: ct2)
              = firstLast ((c1 :: c2 :: ct2).filter
                  (fun d => d.typ == "systolic")) ++
                firstLast ((c1 :: c2 :: ct2).filter
                  (fun d => d.typ == "diastolic")) from rfl]
            rw [hcs, hcd]
            rw [firstLast_eq_self _ (firstLast_length_le _),
              firstLast_eq_self _ (firstLast_length_le _)]
            rfl
          rw [hsel, hc]

theorem bp_idem (l : List DRec) (hl : List.Sorted tsLE l) :
    bpWeeklyReduce (bpWeeklyReduce l) = bpWeeklyReduce l := by
  have hs : List.Sorted tsLE (bpWeeklyReduce l) := List.sorted_insertionSort tsLE _
  rw [bpWeeklyReduce_sorted_form (bpWeeklyReduce l) hs]
  have hgs : groupByDay (bpWeeklyReduce l)
      = ((groupByDay l).map
          (fun g => (g.1, List.insertionSort tsLE (bpDaySel g.2)))).filter
          (fun g => !g.2.isEmpty) := by
    conv_lhs => rw [bpWeeklyReduce_sorted_form l hl]
    exact out_groupByDay l hl (fun b => List.insertionSort tsLE (bpDaySel b))
      (fun b x hx => bpDaySel_subset b x
        ((List.perm_insertionSort tsLE (bpDaySel b)).mem_iff.mp hx))
  rw [hgs]
  have hmap : (((groupByDay l).map
        (fun g => (g.1, List.insertionSort tsLE (bpDaySel g.2)))).filter
        (fun g => !g.2.isEmpty)).map
        (fun g => List.insertionSort tsLE (bpDaySel g.2))
      = (((groupByDay l).map
          (fun g => (g.1, List.insertionSort tsLE (bpDaySel g.2)))).filter
          (fun g => !g.2.isEmpty)).map Prod.snd := by
    apply List.map_congr_left
    intro g hg
    obtain ⟨g0, hg0, rfl⟩ :=
      List.mem_map.mp (List.mem_of_mem_filter hg)
    exact bp_chunk_idem g0.2 (bucket_sorted l hl g0 hg0)
  rw [hmap, flatten_filter_nonempty, List.map_map]
  rw [bpWeeklyReduce_sorted_form l hl]
  rfl

/-- C9: each period-class reduction is idempotent on its own output — the
generic weekly first-and-last-per-day reduction, the monthly
first-per-day reduction, and the per-discriminator blood-pressure weekly
variant all return their own output unchanged when applied again. -/
theorem downsample_idempotent (l : List DRec) (hl : List.Sorted tsLE l) :
    weeklyReduce (weeklyReduce l) = weeklyReduce l ∧
    monthlyReduce (monthlyReduce l) = monthlyReduce l ∧
    bpWeeklyReduce (bpWeeklyReduce l) = bpWeeklyReduce l :=
  ⟨weekly_idem l hl, monthly_idem l hl, bp_idem l hl⟩

/-- C9 witness: the three reductions applied twice to a concrete two-day,
mixed-discriminator, time-ascending series coincide with one application. -/
theorem downsample_idempotent_witness :
    weeklyReduce (weeklyReduce (bpExample ++ [⟨86400100, "systolic", 9⟩]))
        = weeklyReduce (bpExample ++ [⟨86400100, "systolic", 9⟩]) ∧
    monthlyReduce (monthlyReduce (bpExample ++ [⟨86400100, "systolic", 9⟩]))
        = monthlyReduce (bpExample ++ [⟨86400100, "systolic", 9⟩]) ∧
    bpWeeklyReduce (bpWeeklyReduce (bpExample ++ [⟨86400100, "systolic", 9⟩]))
        = bpWeeklyReduce (bpExample ++ [⟨86400100, "systolic", 9⟩]) :=
  downsample_idempotent (bpExample ++ [⟨86400100, "systolic", 9⟩]) (by decide)

end HealthApi
